import Mathlib

/-!
Verification development for the GitArena graph core
(`src/lib/graphAlgo.ts`): adjacency list, Kahn topological sort, greedy
lane assignment, pixel layout, quadtree spatial index, BFS ancestry.

The definitions below are a shallow embedding of the TypeScript source:
JavaScript `Map`s become association lists (`Map.set` with a fresh key is
a cons; `Map.get` with last-write-wins is a reverse `find?`), mutable
arrays become lists, numbers used for coordinates become `ℚ` (all
coordinate arithmetic in the source is exact on dyadic rationals),
timestamps become `ℤ`, and the two `while` loops that are not
structurally recursive (Kahn's queue, the BFS queue) take an explicit
fuel argument that is proved sufficient below.
-/

/-- `CommitNode` from `src/lib/types.ts`. -/
structure CommitNode where
  oid : String
  message : String
  parents : List String
  timestamp : Int
  refs : List String
  isHead : Bool
deriving Repr, DecidableEq

/-- The list of commit identifiers, in input order. -/
def oids (commits : List CommitNode) : List String :=
  commits.map (fun c => c.oid)

/-- `buildAdjacencyList`: maps each commit id to its raw parent list. -/
def buildAdjacencyList (commits : List CommitNode) : List (String × List String) :=
  commits.map (fun c => (c.oid, c.parents))

/-- All resolved parent references of the commit(s) carrying oid `x`:
the parent entries that are themselves identifiers of the input set.
This is the per-key content of the `inDegree` bookkeeping in
`topologicalSort` (each resolved parent occurrence of a commit adds one
to that commit's in-degree). -/
def rpOf (commits : List CommitNode) (x : String) : List String :=
  (commits.filter (fun c => c.oid = x)).flatMap
    (fun c => c.parents.filter (fun p => p ∈ oids commits))

/-- Initial in-degree of oid `x`: the number of resolved parent
occurrences of the commit(s) with this oid. -/
def initDeg (commits : List CommitNode) (x : String) : Int :=
  ((rpOf commits x).length : Int)

/-- The `children` map of `topologicalSort`: for a resolved identifier
`p`, all commits listing `p` as a parent, once per occurrence, in input
order.  Identifiers outside the set never receive a `children` entry. -/
def childrenOf (commits : List CommitNode) (p : String) : List String :=
  if p ∈ oids commits then
    commits.flatMap (fun c => (c.parents.filter (fun q => q = p)).map (fun _ => c.oid))
  else []

/-- First-occurrence key order of a JavaScript `Map` keyed by these
strings (keys are created on first `set`). -/
def dedupFirst : List String → List String
  | [] => []
  | x :: xs => x :: (dedupFirst xs).filter (fun y => ¬ y = x)

/-- Inner `for (const child of children.get(node))` loop of the Kahn
queue: decrement each child's in-degree and enqueue it when it reaches
zero. -/
def processChildren : List String → List String → (String → Int) →
    List String × (String → Int)
  | [], queue, deg => (queue, deg)
  | c :: rest, queue, deg =>
    processChildren rest
      (if deg c - 1 = 0 then queue ++ [c] else queue)
      (fun x => if x = c then deg c - 1 else deg x)

/-- The index-based Kahn queue loop of `topologicalSort`.  The `sorted`
array of the source is always the already-dequeued prefix `queue.take
idx`, so it is returned directly.  `fuel` bounds the number of loop
iterations and is proved sufficient for the claims below. -/
def kahnLoop (children : String → List String) :
    Nat → List String → Nat → (String → Int) → List String
  | 0, queue, idx, _ => queue.take idx
  | fuel + 1, queue, idx, deg =>
    if h : idx < queue.length then
      let st := processChildren (children (queue.get ⟨idx, h⟩)) queue deg
      kahnLoop children fuel st.1 (idx + 1) st.2
    else queue.take idx

/-- `topologicalSort` (Kahn's algorithm, then unresolved commits appended
in input order). -/
def topologicalSort (commits : List CommitNode) : List String :=
  let sorted := kahnLoop (childrenOf commits) (commits.length + 1)
    ((dedupFirst (oids commits)).filter (fun x => initDeg commits x = 0)) 0
    (initDeg commits)
  sorted ++ (commits.filter (fun c => ¬ c.oid ∈ sorted)).map (fun c => c.oid)

/-- Stable sort by timestamp descending: the `[...commits].sort((a, b) =>
b.timestamp - a.timestamp)` of the source (JavaScript `sort` is stable;
any stable sort for this comparator computes the same list). -/
def sortDesc (commits : List CommitNode) : List CommitNode :=
  commits.insertionSort (fun a b => b.timestamp ≤ a.timestamp)

/-- `activeLanes.indexOf(null)`, appending a fresh lane when none is
free; returns the chosen index together with the (possibly extended)
lane array. -/
def findFree (lanes : List (Option String)) : Nat × List (Option String) :=
  match lanes.findIdx? (fun s => s = none) with
  | some i => (i, lanes)
  | none => (lanes.length, lanes ++ [none])

/-- The parent-reservation loop of `assignColumns` for one commit:
`i` is the parent index, `col` the commit's own lane. -/
def processParents (oidsL : List String) (columns : List (String × Nat)) :
    List String → Nat → Nat → List (Option String) → List (String × Nat) →
    List (Option String) × List (String × Nat)
  | [], _, _, lanes, res => (lanes, res)
  | p :: rest, i, col, lanes, res =>
    if p ∈ oidsL ∧ (columns.lookup p).isNone ∧ (res.lookup p).isNone then
      let pick : Nat × List (Option String) :=
        if i = 0 ∧ lanes.get? col = some none then (col, lanes) else findFree lanes
      processParents oidsL columns rest (i + 1) col
        (pick.2.set pick.1 (some p)) ((p, pick.1) :: res)
    else
      processParents oidsL columns rest (i + 1) col lanes res

/-- Mutable state of the `assignColumns` pass. -/
structure ALState where
  columns : List (String × Nat)
  activeLanes : List (Option String)
  reservations : List (String × Nat)

/-- Body of the main commit loop of `assignColumns`. -/
def stepCommit (oidsL : List String) (st : ALState) (c : CommitNode) : ALState :=
  let r := st.reservations.lookup c.oid
  let col : Nat := match r with
    | some k => k
    | none => (findFree st.activeLanes).1
  let lanes1 := match r with
    | some k => st.activeLanes.set k none
    | none => (findFree st.activeLanes).2
  let res1 := match r with
    | some _ => st.reservations.filter (fun kv => ¬ kv.1 = c.oid)
    | none => st.reservations
  let cols1 := (c.oid, col) :: st.columns
  let pr := processParents oidsL cols1 c.parents 0 col lanes1 res1
  ⟨cols1, pr.1, pr.2⟩

/-- `assignColumns`: greedy lane allocation over commits sorted newest
first.  The returned association list is the `columns` map. -/
def assignColumns (commits : List CommitNode) : List (String × Nat) :=
  ((sortDesc commits).foldl (stepCommit (oids commits)) ⟨[], [], []⟩).columns

/-- `graph` rendering constants from `src/styles/tokens.ts`. -/
def colSpacing : ℚ := 80

/-- Row spacing constant from `src/styles/tokens.ts`. -/
def rowSpacing : ℚ := 70

/-- The fixed layout padding of `computeLayout`. -/
def layoutPadding : ℚ := 60

/-- `colors.branchColors` from `src/styles/tokens.ts`. -/
def branchColors : List String :=
  ["#6366f1", "#22c55e", "#f59e0b", "#ec4899", "#06b6d4", "#f97316", "#a855f7", "#14b8a6"]

/-- `LayoutNode` from `src/lib/types.ts`. -/
structure LayoutNode where
  oid : String
  x : ℚ
  y : ℚ
  col : Nat
  row : Nat
  color : String
  parents : List String
  refs : List String
  message : String
  isHead : Bool
deriving Repr, DecidableEq

/-- `LayoutEdge` from `src/lib/types.ts` (`from`/`to` renamed, `from` is
a Lean keyword). -/
structure LayoutEdge where
  src : String
  dst : String
  color : String
  points : List (ℚ × ℚ)
deriving Repr, DecidableEq

/-- `GraphLayout` from `src/lib/types.ts`. -/
structure GraphLayout where
  nodes : List LayoutNode
  edges : List LayoutEdge
  width : ℚ
  height : ℚ
deriving Repr, DecidableEq

/-- JavaScript `Map.get` after inserting every element of `l` keyed by a
predicate match: the last matching element wins. -/
def lastMatch {α : Type} (l : List α) (p : α → Bool) : Option α :=
  l.reverse.find? p

/-- One `LayoutNode` of `computeLayout` from a commit and its row. -/
def mkLayoutNode (columns : List (String × Nat)) (c : CommitNode) (row : Nat) :
    LayoutNode :=
  let col := (columns.lookup c.oid).getD 0
  { oid := c.oid
    x := layoutPadding + (col : ℚ) * colSpacing
    y := layoutPadding + (row : ℚ) * rowSpacing
    col := col
    row := row
    color := branchColors.getD (col % branchColors.length) ""
    parents := c.parents
    refs := c.refs
    message := c.message
    isHead := c.isHead }

/-- The `sorted.map((commit, row) => ...)` node construction. -/
def mkNodes (columns : List (String × Nat)) : List CommitNode → Nat → List LayoutNode
  | [], _ => []
  | c :: rest, row => mkLayoutNode columns c row :: mkNodes columns rest (row + 1)

/-- Bezier control points of one edge. -/
def mkEdgePoints (n par : LayoutNode) : List (ℚ × ℚ) :=
  if n.col = par.col then [(n.x, n.y), (par.x, par.y)]
  else
    [(n.x, n.y), (n.x, (n.y + par.y) / 2), (par.x, (n.y + par.y) / 2), (par.x, par.y)]

/-- The edge construction loop of `computeLayout`: one edge per parent
reference that resolves in the node map (last write wins, as in the
source's `nodeMap`). -/
def mkEdges (nodes : List LayoutNode) : List LayoutEdge :=
  nodes.flatMap (fun n => n.parents.filterMap (fun pOid =>
    match lastMatch nodes (fun m => m.oid = pOid) with
    | none => none
    | some par => some ⟨n.oid, pOid, n.color, mkEdgePoints n par⟩))

/-- `Math.max(...nodes.map(n => n.col), 0)`. -/
def maxColOf (nodes : List LayoutNode) : Nat :=
  (nodes.map (fun n => n.col)).foldr max 0

/-- `computeLayout`: empty short-circuit, lane assignment, row order by
timestamp descending, pixel positions, edges, floored bounding box.
(The source also builds an `oidToIndex` map that is never read; it is
omitted.) -/
def computeLayout (commits : List CommitNode) : GraphLayout :=
  if commits.length = 0 then ⟨[], [], 0, 0⟩
  else
    let columns := assignColumns commits
    let nodes := mkNodes columns (sortDesc commits) 0
    let width : ℚ := layoutPadding * 2 + (maxColOf nodes : ℚ) * colSpacing
    let height : ℚ := layoutPadding * 2 + ((nodes.length - 1 : ℕ) : ℚ) * rowSpacing
    ⟨nodes, mkEdges nodes, max width 200, max height 200⟩

/-- `BBox` from `src/lib/types.ts`. -/
structure BBox where
  x : ℚ
  y : ℚ
  width : ℚ
  height : ℚ
deriving Repr, DecidableEq

/-- A stored quadtree entry `{item, x, y}`. -/
structure QEntry (T : Type) where
  item : T
  x : ℚ
  y : ℚ
deriving Repr, DecidableEq

/-- `QuadtreeNode`: bounds, an inline item list, and either no children
(leaf) or exactly four child quadrants in NW, NE, SW, SE order. -/
inductive QNode (T : Type) where
  | leaf (bounds : BBox) (items : List (QEntry T))
  | quad (bounds : BBox) (items : List (QEntry T)) (c0 c1 c2 c3 : QNode T)
deriving Repr, DecidableEq

/-- Bounds of a quadtree node. -/
def QNode.bounds {T : Type} : QNode T → BBox
  | leaf b _ => b
  | quad b _ _ _ _ _ => b

/-- All entries stored in a node and its descendants, in preorder. -/
def QNode.entries {T : Type} : QNode T → List (QEntry T)
  | leaf _ items => items
  | quad _ items c0 c1 c2 c3 =>
      items ++ c0.entries ++ c1.entries ++ c2.entries ++ c3.entries

/-- `Quadtree.inBounds`: point-in-rectangle, edges inclusive. -/
def inB (b : BBox) (x y : ℚ) : Bool :=
  decide (b.x ≤ x) && decide (x ≤ b.x + b.width) &&
  decide (b.y ≤ y) && decide (y ≤ b.y + b.height)

/-- `Quadtree.boundsOverlap`: axis-aligned rectangle overlap test. -/
def boundsOverlap (a b : BBox) : Bool :=
  !(decide (b.x + b.width < a.x) || decide (a.x + a.width < b.x) ||
    decide (b.y + b.height < a.y) || decide (a.y + a.height < b.y))

/-- The four equal quadrants of a rectangle, in NW, NE, SW, SE order. -/
def quadrants (b : BBox) : BBox × BBox × BBox × BBox :=
  (⟨b.x, b.y, b.width / 2, b.height / 2⟩,
   ⟨b.x + b.width / 2, b.y, b.width / 2, b.height / 2⟩,
   ⟨b.x, b.y + b.height / 2, b.width / 2, b.height / 2⟩,
   ⟨b.x + b.width / 2, b.y + b.height / 2, b.width / 2, b.height / 2⟩)

/-- Result of redistributing a node's items over its new quadrants. -/
structure Buckets (T : Type) where
  stay : List (QEntry T)
  l0 : List (QEntry T)
  l1 : List (QEntry T)
  l2 : List (QEntry T)
  l3 : List (QEntry T)

/-- The redistribution loop of `Quadtree.subdivide`: each entry goes to
the first quadrant containing its point, or stays at the parent. -/
def distrib {T : Type} (q0 q1 q2 q3 : BBox) : List (QEntry T) → Buckets T
  | [] => ⟨[], [], [], [], []⟩
  | e :: rest =>
    let r := distrib q0 q1 q2 q3 rest
    if inB q0 e.x e.y then ⟨r.stay, e :: r.l0, r.l1, r.l2, r.l3⟩
    else if inB q1 e.x e.y then ⟨r.stay, r.l0, e :: r.l1, r.l2, r.l3⟩
    else if inB q2 e.x e.y then ⟨r.stay, r.l0, r.l1, e :: r.l2, r.l3⟩
    else if inB q3 e.x e.y then ⟨r.stay, r.l0, r.l1, r.l2, e :: r.l3⟩
    else ⟨e :: r.stay, r.l0, r.l1, r.l2, r.l3⟩

/-- `Quadtree.subdivide` applied to a leaf's bounds and items. -/
def subdivideNode {T : Type} (b : BBox) (items : List (QEntry T)) : QNode T :=
  let q := quadrants b
  let bk := distrib q.1 q.2.1 q.2.2.1 q.2.2.2 items
  QNode.quad b bk.stay (QNode.leaf q.1 bk.l0) (QNode.leaf q.2.1 bk.l1)
    (QNode.leaf q.2.2.1 bk.l2) (QNode.leaf q.2.2.2 bk.l3)

/-- `Quadtree.insertInto`: out-of-bounds points are dropped; leaves
append and subdivide past `maxItems` while depth budget remains;
internal nodes descend into the first containing child, falling back to
the local overflow list. -/
def insertInto {T : Type} (mi md : Nat) : QNode T → QEntry T → Nat → QNode T
  | QNode.leaf b items, e, depth =>
    if inB b e.x e.y then
      if mi < (items ++ [e]).length ∧ depth < md then subdivideNode b (items ++ [e])
      else QNode.leaf b (items ++ [e])
    else QNode.leaf b items
  | QNode.quad b items c0 c1 c2 c3, e, depth =>
    if inB b e.x e.y then
      if inB c0.bounds e.x e.y then QNode.quad b items (insertInto mi md c0 e (depth + 1)) c1 c2 c3
      else if inB c1.bounds e.x e.y then QNode.quad b items c0 (insertInto mi md c1 e (depth + 1)) c2 c3
      else if inB c2.bounds e.x e.y then QNode.quad b items c0 c1 (insertInto mi md c2 e (depth + 1)) c3
      else if inB c3.bounds e.x e.y then QNode.quad b items c0 c1 c2 (insertInto mi md c3 e (depth + 1))
      else QNode.quad b (items ++ [e]) c0 c1 c2 c3
    else QNode.quad b items c0 c1 c2 c3

/-- The `Quadtree` class: root node plus the two tuning limits. -/
structure Quadtree (T : Type) where
  root : QNode T
  maxItems : Nat
  maxDepth : Nat

/-- The `Quadtree` constructor: an empty root covering `bounds`. -/
def Quadtree.make {T : Type} (bounds : BBox) (maxItems maxDepth : Nat) : Quadtree T :=
  ⟨QNode.leaf bounds [], maxItems, maxDepth⟩

/-- `Quadtree.insert`. -/
def Quadtree.insert {T : Type} (qt : Quadtree T) (item : T) (x y : ℚ) : Quadtree T :=
  ⟨insertInto qt.maxItems qt.maxDepth qt.root ⟨item, x, y⟩ 0, qt.maxItems, qt.maxDepth⟩

/-- The axis-aligned search square of side `2 * radius` used by
`queryNode`. -/
def searchBox (x y r : ℚ) : BBox :=
  ⟨x - r, y - r, r * 2, r * 2⟩

/-- The entries on which `queryNode` invokes its callback, in callback
order: a preorder walk pruned by overlap with the search square. -/
def visitList {T : Type} (x y r : ℚ) : QNode T → List (QEntry T)
  | QNode.leaf b items => if boundsOverlap b (searchBox x y r) then items else []
  | QNode.quad b items c0 c1 c2 c3 =>
    if boundsOverlap b (searchBox x y r) then
      items ++ visitList x y r c0 ++ visitList x y r c1 ++
        visitList x y r c2 ++ visitList x y r c3
    else []

/-- Squared Euclidean distance between an entry point and the query
point. -/
def distSq (ex ey x y : ℚ) : ℚ :=
  (ex - x) * (ex - x) + (ey - y) * (ey - y)

/-- `Quadtree.queryNearest`: minimum squared distance strictly below
`radius²` over all visited entries, first encountered wins ties. -/
def Quadtree.queryNearest {T : Type} (qt : Quadtree T) (x y r : ℚ) : Option T :=
  ((visitList x y r qt.root).foldl
    (fun best e => if distSq e.x e.y x y < best.2 then (some e.item, distSq e.x e.y x y) else best)
    ((none : Option T), r * r)).1

/-- `Quadtree.queryRectNode`. -/
def queryRectNode {T : Type} (rect : BBox) : QNode T → List T
  | QNode.leaf b items =>
    if boundsOverlap b rect then (items.filter (fun e => inB rect e.x e.y)).map (fun e => e.item)
    else []
  | QNode.quad b items c0 c1 c2 c3 =>
    if boundsOverlap b rect then
      (items.filter (fun e => inB rect e.x e.y)).map (fun e => e.item) ++
        queryRectNode rect c0 ++ queryRectNode rect c1 ++
        queryRectNode rect c2 ++ queryRectNode rect c3
    else []

/-- `Quadtree.queryRect`. -/
def Quadtree.queryRect {T : Type} (qt : Quadtree T) (rect : BBox) : List T :=
  queryRectNode rect qt.root

/-- `buildSpatialIndex`: a quadtree over the layout bounds plus a 200px
margin, with `maxItems 4` and `maxDepth 10`, filled with every layout
node at its position. -/
def buildSpatialIndex (layout : GraphLayout) : Quadtree LayoutNode :=
  layout.nodes.foldl (fun qt n => qt.insert n n.x n.y)
    (Quadtree.make ⟨0, 0, layout.width + 200, layout.height + 200⟩ 4 10)

/-- `commitMap.get` of `isAncestor` (last write wins). -/
def commitGet (commits : List CommitNode) (s : String) : Option CommitNode :=
  lastMatch commits (fun c => c.oid = s)

/-- The parent list the BFS walks from an identifier: the parents of the
commit found in `commitMap` (empty when the identifier has no commit). -/
def parentsOf (commits : List CommitNode) (s : String) : List String :=
  match commitGet commits s with
  | some c => c.parents
  | none => []

/-- The BFS loop of `isAncestor`: dequeue, test against the target
identifier before the visited check, then enqueue unvisited parents.
`fuel` bounds the iteration count and is proved sufficient below. -/
def bfsAncestor (commits : List CommitNode) (anc : String) :
    Nat → List String → List String → Bool
  | 0, _, _ => false
  | _ + 1, [], _ => false
  | fuel + 1, cur :: rest, visited =>
    if cur = anc then true
    else if cur ∈ visited then bfsAncestor commits anc fuel rest visited
    else
      bfsAncestor commits anc fuel
        (rest ++ (parentsOf commits cur).filter (fun p => ¬ p ∈ cur :: visited))
        (cur :: visited)

/-- `isAncestor(commits, ancestor, descendant)`. -/
def isAncestor (commits : List CommitNode) (anc desc : String) : Bool :=
  bfsAncestor commits anc ((commits.map (fun c => c.parents.length)).sum + 2) [desc] []

/-- Termination potential for the BFS: the queue length plus the total
parent-list length of the not-yet-visited commits.  Each loop iteration
strictly decreases it. -/
def bfsPot (commits : List CommitNode) (queue visited : List String) : Nat :=
  queue.length +
    ((commits.filter (fun c => ¬ c.oid ∈ visited)).map (fun c => c.parents.length)).sum

/-- One parent edge: `x` is a commit of the set and `p` one of its
parent references. -/
def parentStep (commits : List CommitNode) (x p : String) : Prop :=
  ∃ c ∈ commits, c.oid = x ∧ p ∈ c.parents

/-- A finite sequence of `insert` calls against a quadtree. -/
def insertList {T : Type} (qt : Quadtree T) (entries : List (QEntry T)) : Quadtree T :=
  entries.foldl (fun q e => q.insert e.item e.x e.y) qt

/-- Occurrence count of a string in a list, as a filter length. -/
def cnt (a : String) (l : List String) : Nat :=
  (l.filter (fun y => y = a)).length

/-- Invariant of the Kahn queue loop.  `queue.take idx` is the already
dequeued (`sorted`) prefix.  `deg x` is the current in-degree of `x`:
its initial in-degree minus one per resolved parent edge from `x` into
the dequeued prefix.  A node is in the queue iff its in-degree has
dropped to (or below) zero, and every dequeued-or-enqueued node's
resolved parents all sit strictly earlier in the queue. -/
structure KahnInv (commits : List CommitNode) (queue : List String) (idx : Nat)
    (deg : String → Int) : Prop where
  nodup : queue.Nodup
  subset : ∀ x ∈ queue, x ∈ oids commits
  idx_le : idx ≤ queue.length
  deg_eq : ∀ x ∈ oids commits,
    deg x = ((rpOf commits x).length : Int) -
      (((rpOf commits x).filter (fun p => p ∈ queue.take idx)).length : Int)
  mem_iff : ∀ x, x ∈ queue ↔ (x ∈ oids commits ∧ deg x ≤ 0)
  ordered : ∀ (j : Nat) (h : j < queue.length),
    ∀ p ∈ rpOf commits (queue.get ⟨j, h⟩), p ∈ queue.take j

/-- Rectangle containment, edges inclusive. -/
def rectInside (inner outer : BBox) : Prop :=
  outer.x ≤ inner.x ∧ outer.y ≤ inner.y ∧
  inner.x + inner.width ≤ outer.x + outer.width ∧
  inner.y + inner.height ≤ outer.y + outer.height

/-- Structural quadtree invariant: nonnegative extents, every stored
entry inside its node's bounds, and every child quadrant contained in
its parent's rectangle. -/
def WFQ {T : Type} : QNode T → Prop
  | QNode.leaf b items =>
    0 ≤ b.width ∧ 0 ≤ b.height ∧ ∀ e ∈ items, inB b e.x e.y
  | QNode.quad b items c0 c1 c2 c3 =>
    0 ≤ b.width ∧ 0 ≤ b.height ∧ (∀ e ∈ items, inB b e.x e.y) ∧
    rectInside c0.bounds b ∧ rectInside c1.bounds b ∧
    rectInside c2.bounds b ∧ rectInside c3.bounds b ∧
    WFQ c0 ∧ WFQ c1 ∧ WFQ c2 ∧ WFQ c3

/-! ## Generic list lemmas -/

theorem cnt_nil (a : String) : cnt a [] = 0 := rfl

theorem cnt_cons (a b : String) (l : List String) :
    cnt a (b :: l) = cnt a l + (if b = a then 1 else 0) := by
  by_cases h : b = a <;> simp [cnt, List.filter_cons, h]

theorem cnt_append (a : String) (l₁ l₂ : List String) :
    cnt a (l₁ ++ l₂) = cnt a l₁ + cnt a l₂ := by
  simp [cnt, List.filter_append]

theorem cnt_pos_of_mem {a : String} {l : List String} (h : a ∈ l) : 1 ≤ cnt a l := by
  induction l with
  | nil => cases h
  | cons b t ih =>
    rcases List.mem_cons.mp h with rfl | hm
    · simp [cnt_cons]
    · have := ih hm
      rw [cnt_cons]
      omega

theorem length_filterMap_eq {α β : Type} (f : α → Option β) (l : List α) :
    (l.filterMap f).length = (l.filter (fun a => (f a).isSome)).length := by
  induction l with
  | nil => rfl
  | cons a t ih =>
    cases h : f a <;> simp [List.filterMap_cons, List.filter_cons, h, ih]

theorem mem_take_indexOf {l : List String} {j : Nat} {p : String}
    (h : p ∈ l.take j) : l.indexOf p < j := by
  induction l generalizing j with
  | nil => simp at h
  | cons x xs ih =>
    cases j with
    | zero => simp at h
    | succ j =>
      rcases List.mem_cons.mp (by simpa using h) with rfl | hm
      · simp [List.indexOf_cons_self]
      · by_cases hx : p = x
        · subst hx; simp [List.indexOf_cons_self]
        · rw [List.indexOf_cons_ne _ (fun hh => hx hh.symm)]
          have := ih (j := j) hm
          omega

theorem indexOf_get_of_nodup {l : List String} (hn : l.Nodup) {j : Nat}
    (h : j < l.length) : l.indexOf (l.get ⟨j, h⟩) = j := by
  have hmem : l.get ⟨j, h⟩ ∈ l := List.get_mem l j h
  have hlt : l.indexOf (l.get ⟨j, h⟩) < l.length := List.indexOf_lt_length.mpr hmem
  have hget : l.get ⟨l.indexOf (l.get ⟨j, h⟩), hlt⟩ = l.get ⟨j, h⟩ := List.indexOf_get hlt
  exact congrArg Fin.val (hn.get_inj_iff.mp hget)

theorem take_subset_take {α : Type} {l : List α} {k j : Nat} (h : k ≤ j) :
    l.take k ⊆ l.take j := by
  intro a ha
  have : l.take k = (l.take j).take k := by
    rw [List.take_take, Nat.min_eq_left h]
  rw [this] at ha
  exact List.take_subset _ _ ha

theorem exists_not_mem_of_filter_length_lt {l P : List String}
    (h : (l.filter (fun p => p ∈ P)).length < l.length) : ∃ p ∈ l, p ∉ P := by
  by_contra hc
  push_neg at hc
  have : l.filter (fun p => p ∈ P) = l := by
    apply List.filter_eq_self.mpr
    intro a ha
    simpa using hc a ha
  rw [this] at h
  omega

theorem mem_foldr_max_le {l : List Nat} {a : Nat} (h : a ∈ l) :
    a ≤ l.foldr max 0 := by
  induction l with
  | nil => cases h
  | cons b t ih =>
    rcases List.mem_cons.mp h with rfl | hm
    · exact Nat.le_max_left _ _
    · exact le_trans (ih hm) (Nat.le_max_right _ _)

/-! ## C1: `computeLayout []` -/

/-- C1 counterexample: on the empty commit list `computeLayout` returns
width and height `0`, not the claimed positive floor of `200`; the claim
as stated is false on the code. -/
theorem computeLayout_empty_no_floor :
    (computeLayout []).width = 0 ∧ (computeLayout []).height = 0 ∧
      ¬ ((computeLayout []).width = 200 ∧ (computeLayout []).height = 200) := by
  refine ⟨rfl, rfl, ?_⟩
  intro h
  have : (0 : ℚ) = 200 := h.1
  norm_num at this

/-- C1 (amended): for the empty commit list `computeLayout` returns an
empty node list, an empty edge list, and width and height both `0`:
the empty-input short-circuit bypasses the `200` floor, which is applied
only to non-empty graphs. -/
theorem computeLayout_empty :
    computeLayout [] = ⟨[], [], 0, 0⟩ := rfl

/-! ## C4: node and edge counts of `computeLayout` -/

theorem mkNodes_length (cols : List (String × Nat)) :
    ∀ (l : List CommitNode) (r : Nat), (mkNodes cols l r).length = l.length := by
  intro l
  induction l with
  | nil => intro r; rfl
  | cons c t ih => intro r; simp [mkNodes, ih]

theorem sortDesc_perm (commits : List CommitNode) :
    List.Perm (sortDesc commits) commits :=
  List.perm_insertionSort _ commits

theorem mkNodes_parents (cols : List (String × Nat)) :
    ∀ (l : List CommitNode) (r : Nat),
      (mkNodes cols l r).map (fun n => n.parents) = l.map (fun c => c.parents) := by
  intro l
  induction l with
  | nil => intro r; rfl
  | cons c t ih => intro r; simp [mkNodes, mkLayoutNode, ih]

theorem mkNodes_map_filter_len (cols : List (String × Nat)) (P : String → Bool) :
    ∀ (l : List CommitNode) (r : Nat),
      (mkNodes cols l r).map (fun n => (n.parents.filter P).length)
        = l.map (fun c => (c.parents.filter P).length) := by
  intro l
  induction l with
  | nil => intro r; rfl
  | cons c t ih => intro r; simp [mkNodes, mkLayoutNode, ih]

theorem mkNodes_oids (cols : List (String × Nat)) :
    ∀ (l : List CommitNode) (r : Nat),
      (mkNodes cols l r).map (fun n => n.oid) = l.map (fun c => c.oid) := by
  intro l
  induction l with
  | nil => intro r; rfl
  | cons c t ih => intro r; simp [mkNodes, mkLayoutNode, ih]

theorem lastMatch_isSome {α : Type} (l : List α) (p : α → Bool) :
    (lastMatch l p).isSome ↔ ∃ a ∈ l, p a := by
  rw [lastMatch, List.find?_isSome]
  constructor
  · rintro ⟨a, ha, hp⟩; exact ⟨a, List.mem_reverse.mp ha, hp⟩
  · rintro ⟨a, ha, hp⟩; exact ⟨a, List.mem_reverse.mpr ha, hp⟩

theorem mkEdges_length (nodes : List LayoutNode) :
    (mkEdges nodes).length =
      (nodes.map (fun n =>
        (n.parents.filter (fun p => p ∈ nodes.map (fun m => m.oid))).length)).sum := by
  rw [mkEdges, List.length_flatMap]
  simp only [Function.comp_def]
  congr 1
  apply List.map_congr_left
  intro n _
  rw [length_filterMap_eq]
  congr 1
  apply List.filter_congr
  intro p _
  have : (match lastMatch nodes (fun m => m.oid = p) with
      | none => (none : Option LayoutEdge)
      | some par => some ⟨n.oid, p, n.color, mkEdgePoints n par⟩).isSome
      = (lastMatch nodes (fun m => m.oid = p)).isSome := by
    cases lastMatch nodes (fun m => m.oid = p) <;> rfl
  rw [this]
  have hiff : (lastMatch nodes (fun m => m.oid = p)).isSome ↔
      p ∈ nodes.map (fun m => m.oid) := by
    rw [lastMatch_isSome]
    constructor
    · rintro ⟨m, hm, he⟩
      exact List.mem_map.mpr ⟨m, hm, by simpa using he⟩
    · rintro hm
      rcases List.mem_map.mp hm with ⟨m, hm, he⟩
      exact ⟨m, hm, by simp [he]⟩
  by_cases hp : p ∈ nodes.map (fun m => m.oid)
  · simp [hiff.mpr hp, hp]
  · have hnone : (lastMatch nodes (fun m => m.oid = p)).isSome = false := by
      rw [Bool.eq_false_iff]
      intro hs
      exact hp (hiff.mp hs)
    simp [hnone, hp]

/-- C4: `computeLayout` emits exactly one node per input commit and one
edge per parent reference resolving inside the input identifier set. -/
theorem computeLayout_counts (commits : List CommitNode)
    (_hN : (oids commits).Nodup) :
    (computeLayout commits).nodes.length = commits.length ∧
    (computeLayout commits).edges.length =
      (commits.map (fun c => (c.parents.filter (fun p => p ∈ oids commits)).length)).sum := by
  by_cases hz : commits.length = 0
  · have : commits = [] := List.length_eq_zero.mp hz
    subst this
    exact ⟨rfl, rfl⟩
  · constructor
    · simp only [computeLayout, hz, if_neg hz, reduceIte]
      rw [mkNodes_length, (sortDesc_perm commits).length_eq]
    · simp only [computeLayout, hz, if_neg hz, reduceIte]
      rw [mkEdges_length]
      have hoids : (mkNodes (assignColumns commits) (sortDesc commits) 0).map
          (fun m => m.oid) = (sortDesc commits).map (fun c => c.oid) :=
        mkNodes_oids _ _ _
      have hmemiff : ∀ p : String,
          (p ∈ (mkNodes (assignColumns commits) (sortDesc commits) 0).map
            (fun m => m.oid)) ↔ p ∈ oids commits := by
        intro p
        rw [hoids, oids]
        exact ((sortDesc_perm commits).map (fun c => c.oid)).mem_iff
      have hstep1 : (mkNodes (assignColumns commits) (sortDesc commits) 0).map
          (fun n => (n.parents.filter (fun p =>
            p ∈ (mkNodes (assignColumns commits) (sortDesc commits) 0).map
              (fun m => m.oid))).length)
          = (mkNodes (assignColumns commits) (sortDesc commits) 0).map
            (fun n => (n.parents.filter (fun p => p ∈ oids commits)).length) := by
        apply List.map_congr_left
        intro n _
        congr 1
        apply List.filter_congr
        intro p _
        simp [hmemiff p]
      rw [hstep1, mkNodes_map_filter_len]
      exact ((sortDesc_perm commits).map _).sum_eq

/-- C4 witness at a concrete three-commit history with one dangling
parent reference. -/
theorem computeLayout_counts_witness :
    (oids [⟨"a", "", [], 100, [], false⟩, ⟨"b", "", ["a", "zz"], 200, [], false⟩,
      ⟨"c", "", ["b"], 300, [], false⟩]).Nodup ∧
    (computeLayout [⟨"a", "", [], 100, [], false⟩, ⟨"b", "", ["a", "zz"], 200, [], false⟩,
      ⟨"c", "", ["b"], 300, [], false⟩]).nodes.length = 3 ∧
    (computeLayout [⟨"a", "", [], 100, [], false⟩, ⟨"b", "", ["a", "zz"], 200, [], false⟩,
      ⟨"c", "", ["b"], 300, [], false⟩]).edges.length = 2 := by
  refine ⟨by decide, ?_⟩
  have h := computeLayout_counts
    [⟨"a", "", [], 100, [], false⟩, ⟨"b", "", ["a", "zz"], 200, [], false⟩,
      ⟨"c", "", ["b"], 300, [], false⟩] (by decide)
  refine ⟨?_, ?_⟩
  · rw [h.1]; rfl
  · rw [h.2]; decide

/-! ## C2/C3: the Kahn loop -/

theorem pc_deg (cs : List String) :
    ∀ (q : List String) (deg : String → Int) (x : String),
      (processChildren cs q deg).2 x = deg x - (cnt x cs : Int) := by
  induction cs with
  | nil => intro q deg x; simp [processChildren, cnt]
  | cons c rest ih =>
    intro q deg x
    rw [processChildren, ih]
    by_cases hx : x = c
    · subst hx
      rw [if_pos rfl, cnt_cons]
      simp
      ring
    · rw [if_neg hx, cnt_cons]
      have hcx : ¬ c = x := fun h => hx h.symm
      simp [hcx]

theorem pc_append (cs : List String) :
    ∀ (q : List String) (deg : String → Int),
      ∃ t, (processChildren cs q deg).1 = q ++ t := by
  induction cs with
  | nil => intro q deg; exact ⟨[], by simp [processChildren]⟩
  | cons c rest ih =>
    intro q deg
    rw [processChildren]
    by_cases hc : deg c - 1 = 0
    · obtain ⟨t, ht⟩ := ih (q ++ [c]) (fun x => if x = c then deg c - 1 else deg x)
      refine ⟨[c] ++ t, ?_⟩
      rw [if_pos hc, ht, List.append_assoc]
    · obtain ⟨t, ht⟩ := ih q (fun x => if x = c then deg c - 1 else deg x)
      refine ⟨t, ?_⟩
      rw [if_neg hc, ht]

theorem pc_mem (cs : List String) :
    ∀ (q : List String) (deg : String → Int) (x : String),
      x ∈ (processChildren cs q deg).1 → x ∈ q ∨ x ∈ cs := by
  induction cs with
  | nil => intro q deg x hx; exact Or.inl (by simpa [processChildren] using hx)
  | cons c rest ih =>
    intro q deg x hx
    rw [processChildren] at hx
    rcases ih _ _ x hx with hq | hrest
    · by_cases hc : deg c - 1 = 0
      · rw [if_pos hc] at hq
        rcases List.mem_append.mp hq with h | h
        · exact Or.inl h
        · have hxc : x = c := by simpa using h
          subst hxc
          exact Or.inr (List.mem_cons_self x rest)
      · rw [if_neg hc] at hq
        exact Or.inl hq
    · exact Or.inr (List.mem_cons_of_mem c hrest)

theorem pc_new (cs : List String) :
    ∀ (q : List String) (deg : String → Int) (x : String),
      x ∉ q → x ∈ (processChildren cs q deg).1 →
      1 ≤ deg x ∧ deg x ≤ (cnt x cs : Int) := by
  induction cs with
  | nil =>
    intro q deg x hq hx
    exact absurd (by simpa [processChildren] using hx) hq
  | cons c rest ih =>
    intro q deg x hq hx
    rw [processChildren] at hx
    by_cases hc : deg c - 1 = 0
    · rw [if_pos hc] at hx
      by_cases hxq : x ∈ q ++ [c]
      · have hxc : x = c := by
          rcases List.mem_append.mp hxq with h | h
          · exact absurd h hq
          · simpa using h
        subst hxc
        refine ⟨by omega, ?_⟩
        rw [cnt_cons]
        have : (if x = x then 1 else 0) = 1 := if_pos rfl
        rw [this]
        push_cast
        omega
      · have h2 := ih _ _ x hxq hx
        simp only [] at h2
        by_cases hxc : x = c
        · subst hxc
          rw [if_pos rfl] at h2
          rw [cnt_cons]
          have : (if x = x then 1 else 0) = 1 := if_pos rfl
          rw [this]
          push_cast
          omega
        · rw [if_neg hxc] at h2
          rw [cnt_cons]
          have hcx : (if c = x then 1 else 0) = 0 := if_neg (fun h => hxc h.symm)
          rw [hcx]
          push_cast
          omega
    · rw [if_neg hc] at hx
      have h2 := ih _ _ x hq hx
      simp only [] at h2
      by_cases hxc : x = c
      · subst hxc
        rw [if_pos rfl] at h2
        rw [cnt_cons]
        have : (if x = x then 1 else 0) = 1 := if_pos rfl
        rw [this]
        push_cast
        omega
      · rw [if_neg hxc] at h2
        rw [cnt_cons]
        have hcx : (if c = x then 1 else 0) = 0 := if_neg (fun h => hxc h.symm)
        rw [hcx]
        push_cast
        omega

theorem pc_inv (oidsL : List String) (cs : List String) :
    ∀ (q : List String) (deg : String → Int),
      q.Nodup → (∀ x, x ∈ q ↔ (x ∈ oidsL ∧ deg x ≤ 0)) → (∀ x ∈ cs, x ∈ oidsL) →
      (processChildren cs q deg).1.Nodup ∧
      (∀ x, x ∈ (processChildren cs q deg).1 ↔
        (x ∈ oidsL ∧ (processChildren cs q deg).2 x ≤ 0)) := by
  induction cs with
  | nil =>
    intro q deg hq hm _
    exact ⟨by simpa [processChildren] using hq, by simpa [processChildren] using hm⟩
  | cons c rest ih =>
    intro q deg hq hm hcs
    rw [processChildren]
    have hco : c ∈ oidsL := hcs c (List.mem_cons_self c rest)
    by_cases hc : deg c - 1 = 0
    · rw [if_pos hc]
      have hcq : c ∉ q := by
        intro hcq
        have := (hm c).mp hcq
        omega
      apply ih
      · simpa [List.nodup_append] using ⟨hq, by simpa using hcq⟩
      · intro x
        constructor
        · intro hx
          rcases List.mem_append.mp hx with h | h
          · have := (hm x).mp h
            refine ⟨this.1, ?_⟩
            by_cases hxc : x = c
            · subst hxc; omega
            · rw [if_neg hxc]; exact this.2
          · have hxc : x = c := by simpa using h
            subst hxc
            exact ⟨hco, by rw [if_pos rfl]; omega⟩
        · rintro ⟨hxo, hxd⟩
          by_cases hxc : x = c
          · subst hxc
            exact List.mem_append.mpr (Or.inr (by simp))
          · rw [if_neg hxc] at hxd
            exact List.mem_append.mpr (Or.inl ((hm x).mpr ⟨hxo, hxd⟩))
      · intro x hx; exact hcs x (List.mem_cons_of_mem c hx)
    · rw [if_neg hc]
      apply ih
      · exact hq
      · intro x
        constructor
        · intro hx
          have := (hm x).mp hx
          refine ⟨this.1, ?_⟩
          by_cases hxc : x = c
          · subst hxc; omega
          · rw [if_neg hxc]; exact this.2
        · rintro ⟨hxo, hxd⟩
          by_cases hxc : x = c
          · subst hxc
            rw [if_pos rfl] at hxd
            exact (hm x).mpr ⟨hxo, by omega⟩
          · rw [if_neg hxc] at hxd
            exact (hm x).mpr ⟨hxo, hxd⟩
      · intro x hx; exact hcs x (List.mem_cons_of_mem c hx)

theorem cnt_filter_of_mem {n : String} {O : List String} (hn : n ∈ O) (l : List String) :
    cnt n (l.filter (fun p => p ∈ O)) = (l.filter (fun q => q = n)).length := by
  induction l with
  | nil => rfl
  | cons p t ih =>
    by_cases hp : p = n
    · subst hp
      simp only [List.filter_cons]
      rw [if_pos (by simpa using hn), if_pos (by simp)]
      rw [cnt_cons]
      simp [ih]
    · simp only [List.filter_cons]
      by_cases hpo : p ∈ O
      · rw [if_pos (by simpa using hpo), if_neg (by simpa using hp)]
        rw [cnt_cons]
        simp [hp, ih]
      · rw [if_neg (by simpa using hpo), if_neg (by simpa using hp)]
        exact ih

theorem cnt_map_const {α : Type} (x a : String) (l : List α) :
    cnt x (l.map (fun _ => a)) = if a = x then l.length else 0 := by
  induction l with
  | nil => simp [cnt]
  | cons c t ih =>
    simp only [List.map_cons]
    rw [cnt_cons, ih]
    by_cases h : a = x <;> simp [h]

theorem childrenOf_subset {commits : List CommitNode} {p x : String}
    (hx : x ∈ childrenOf commits p) : x ∈ oids commits := by
  rw [childrenOf] at hx
  by_cases hp : p ∈ oids commits
  · rw [if_pos hp] at hx
    rcases List.mem_flatMap.mp hx with ⟨c, hc, hm⟩
    rcases List.mem_map.mp hm with ⟨_, _, rfl⟩
    exact List.mem_map.mpr ⟨c, hc, rfl⟩
  · rw [if_neg hp] at hx
    cases hx

theorem cnt_flat_aux (O : List String) (n x : String) (hn : n ∈ O) :
    ∀ L : List CommitNode,
      cnt x (L.flatMap (fun c => (c.parents.filter (fun q => q = n)).map (fun _ => c.oid)))
        = cnt n ((L.filter (fun c => c.oid = x)).flatMap
            (fun c => c.parents.filter (fun p => p ∈ O))) := by
  intro L
  induction L with
  | nil => rfl
  | cons c t ih =>
    rw [List.flatMap_cons, cnt_append, ih]
    by_cases hc : c.oid = x
    · rw [List.filter_cons, if_pos (by simpa using hc), List.flatMap_cons, cnt_append,
        cnt_map_const, if_pos hc, cnt_filter_of_mem hn]
    · rw [List.filter_cons, if_neg (by simpa using hc), cnt_map_const, if_neg hc]
      omega

theorem cnt_childrenOf {commits : List CommitNode} {n : String}
    (hn : n ∈ oids commits) (x : String) :
    cnt x (childrenOf commits n) = cnt n (rpOf commits x) := by
  rw [childrenOf, if_pos hn, rpOf]
  exact cnt_flat_aux (oids commits) n x hn commits

theorem filter_mem_append_singleton {n : String} {P : List String} (hnP : n ∉ P) :
    ∀ m : List String,
      (m.filter (fun p => p ∈ P ++ [n])).length
        = (m.filter (fun p => p ∈ P)).length + cnt n m := by
  intro m
  induction m with
  | nil => rfl
  | cons q t ih =>
    rw [List.filter_cons, List.filter_cons, cnt_cons]
    by_cases hq : q ∈ P
    · have hqn : ¬ q = n := fun h => hnP (h ▸ hq)
      rw [if_pos (show decide (q ∈ P ++ [n]) = true by simp [hq]),
          if_pos (show decide (q ∈ P) = true by simpa using hq),
          List.length_cons, List.length_cons, ih, if_neg hqn]
      omega
    · by_cases hqn : q = n
      · subst hqn
        rw [if_pos (show decide (q ∈ P ++ [q]) = true by simp),
            if_neg (show ¬ decide (q ∈ P) = true by simpa using hq),
            List.length_cons, ih, if_pos rfl]
        omega
      · rw [if_neg (show ¬ decide (q ∈ P ++ [n]) = true by simp [hq, hqn]),
            if_neg (show ¬ decide (q ∈ P) = true by simpa using hq), ih, if_neg hqn]
        omega

theorem filter_cnt_le {n : String} {P : List String} (hnP : n ∉ P) :
    ∀ l : List String, (l.filter (fun p => p ∈ P)).length + cnt n l ≤ l.length := by
  intro l
  induction l with
  | nil => simp [cnt]
  | cons q t ih =>
    rw [List.filter_cons, cnt_cons, List.length_cons]
    by_cases hq : q ∈ P
    · have hqn : ¬ q = n := fun h => hnP (h ▸ hq)
      rw [if_pos (show decide (q ∈ P) = true by simpa using hq), if_neg hqn,
        List.length_cons]
      omega
    · rw [if_neg (show ¬ decide (q ∈ P) = true by simpa using hq)]
      by_cases hqn : q = n
      · rw [if_pos hqn]; omega
      · rw [if_neg hqn]; omega

theorem all_mem_or_eq_of_le {n : String} {P : List String} (hnP : n ∉ P) :
    ∀ l : List String,
      l.length ≤ (l.filter (fun p => p ∈ P)).length + cnt n l →
      ∀ p ∈ l, p ∈ P ∨ p = n := by
  intro l
  induction l with
  | nil => intro _ p hp; cases hp
  | cons q t ih =>
    intro hle p hp
    rw [List.filter_cons, cnt_cons, List.length_cons] at hle
    have ht := filter_cnt_le hnP t
    by_cases hq : q ∈ P
    · have hqn : ¬ q = n := fun h => hnP (h ▸ hq)
      rw [if_pos (show decide (q ∈ P) = true by simpa using hq), if_neg hqn,
        List.length_cons] at hle
      rcases List.mem_cons.mp hp with rfl | hpt
      · exact Or.inl hq
      · exact ih (by omega) p hpt
    · rw [if_neg (show ¬ decide (q ∈ P) = true by simpa using hq)] at hle
      by_cases hqn : q = n
      · rw [if_pos hqn] at hle
        rcases List.mem_cons.mp hp with rfl | hpt
        · exact Or.inr hqn
        · exact ih (by omega) p hpt
      · rw [if_neg hqn] at hle
        omega

theorem get_not_mem_take {q : List String} (hn : q.Nodup) {idx : Nat}
    (h : idx < q.length) : q.get ⟨idx, h⟩ ∉ q.take idx := by
  intro hmem
  have h1 := mem_take_indexOf hmem
  rw [indexOf_get_of_nodup hn h] at h1
  omega

theorem take_succ_get {α : Type} (q : List α) (idx : Nat) (h : idx < q.length) :
    q.take (idx + 1) = q.take idx ++ [q.get ⟨idx, h⟩] := by
  simp [List.take_succ, List.get?_eq_get h]

theorem nodup_length_le_oids {commits : List CommitNode} {q : List String}
    (hn : q.Nodup) (hsub : ∀ x ∈ q, x ∈ oids commits) :
    q.length ≤ commits.length := by
  have h1 : q.length ≤ (oids commits).length := (hn.subperm hsub).length_le
  simpa [oids] using h1

theorem kahn_step (commits : List CommitNode) {queue : List String} {idx : Nat}
    {deg : String → Int} (inv : KahnInv commits queue idx deg)
    (h : idx < queue.length) :
    KahnInv commits
      (processChildren (childrenOf commits (queue.get ⟨idx, h⟩)) queue deg).1 (idx + 1)
      (processChildren (childrenOf commits (queue.get ⟨idx, h⟩)) queue deg).2 := by
  have hnq : queue.get ⟨idx, h⟩ ∈ queue := List.get_mem queue idx h
  have hno : queue.get ⟨idx, h⟩ ∈ oids commits := inv.subset _ hnq
  have hcs : ∀ x ∈ childrenOf commits (queue.get ⟨idx, h⟩), x ∈ oids commits :=
    fun _ hx => childrenOf_subset hx
  obtain ⟨t, ht⟩ := pc_append (childrenOf commits (queue.get ⟨idx, h⟩)) queue deg
  have hinv2 := pc_inv (oids commits) (childrenOf commits (queue.get ⟨idx, h⟩))
    queue deg inv.nodup inv.mem_iff hcs
  have hntake : queue.get ⟨idx, h⟩ ∉ queue.take idx := get_not_mem_take inv.nodup h
  have htk : queue.take (idx + 1) = queue.take idx ++ [queue.get ⟨idx, h⟩] :=
    take_succ_get queue idx h
  have hlen : queue.length ≤
      (processChildren (childrenOf commits (queue.get ⟨idx, h⟩)) queue deg).1.length := by
    rw [ht]; simp
  have htq : (processChildren (childrenOf commits (queue.get ⟨idx, h⟩)) queue deg).1.take
      (idx + 1) = queue.take (idx + 1) := by
    rw [ht]; exact List.take_append_of_le_length (by omega)
  refine ⟨hinv2.1, ?_, by omega, ?_, hinv2.2, ?_⟩
  · intro x hx
    rcases pc_mem _ queue deg x hx with hq | hc
    · exact inv.subset x hq
    · exact hcs x hc
  · intro x hxo
    rw [pc_deg, inv.deg_eq x hxo, cnt_childrenOf hno x, htq, htk,
      filter_mem_append_singleton hntake]
    push_cast
    ring
  · intro j hj p hp
    revert hp
    revert hj
    rw [ht]
    intro hj hp
    have hnodup' : (queue ++ t).Nodup := by rw [← ht]; exact hinv2.1
    by_cases hjq : j < queue.length
    · have hget : (queue ++ t).get ⟨j, hj⟩ = queue.get ⟨j, hjq⟩ := by
        simp only [List.get_eq_getElem]
        exact List.getElem_append_left hjq
      rw [hget] at hp
      have hold := inv.ordered j hjq p hp
      rw [List.take_append_of_le_length (le_of_lt hjq)]
      exact hold
    · have hxt : (queue ++ t).get ⟨j, hj⟩ ∈ t := by
        simp only [List.get_eq_getElem]
        rw [List.getElem_append_right (by omega)]
        exact List.getElem_mem _
      have hxq' : (queue ++ t).get ⟨j, hj⟩ ∈
          (processChildren (childrenOf commits (queue.get ⟨idx, h⟩)) queue deg).1 := by
        rw [ht]
        exact List.get_mem _ j hj
      have hxnotq : (queue ++ t).get ⟨j, hj⟩ ∉ queue := by
        intro hmem
        exact (List.disjoint_of_nodup_append hnodup') hmem hxt
      have hpp := pc_new _ queue deg _ hxnotq hxq'
      have hxo : (queue ++ t).get ⟨j, hj⟩ ∈ oids commits := by
        rcases pc_mem _ queue deg _ hxq' with hq | hc
        · exact absurd hq hxnotq
        · exact hcs _ hc
      have hde := inv.deg_eq _ hxo
      have hge : (rpOf commits ((queue ++ t).get ⟨j, hj⟩)).length ≤
          ((rpOf commits ((queue ++ t).get ⟨j, hj⟩)).filter
            (fun p => p ∈ queue.take idx)).length +
          cnt (queue.get ⟨idx, h⟩) (rpOf commits ((queue ++ t).get ⟨j, hj⟩)) := by
        have h2 := hpp.2
        rw [cnt_childrenOf hno] at h2
        rw [hde] at h2
        omega
      have hall := all_mem_or_eq_of_le hntake _ hge p hp
      have hsub : queue.take (idx + 1) ⊆ (queue ++ t).take j := by
        intro a ha
        have h2 : a ∈ (queue ++ t).take (idx + 1) := by
          rw [List.take_append_of_le_length (by omega)]
          exact ha
        exact take_subset_take (by omega) h2
      rcases hall with hP | rfl
      · exact hsub (by rw [htk]; exact List.mem_append_left _ hP)
      · exact hsub (by rw [htk]; exact List.mem_append_right _ (by simp))

theorem dedupFirst_eq_of_nodup {l : List String} (h : l.Nodup) : dedupFirst l = l := by
  induction l with
  | nil => rfl
  | cons x xs ih =>
    rcases List.nodup_cons.mp h with ⟨hx, hxs⟩
    rw [dedupFirst, ih hxs, List.filter_eq_self.mpr]
    intro y hy
    simp only [decide_eq_true_eq, decide_not, Bool.not_eq_eq_eq_not, Bool.not_true,
      decide_eq_false_iff_not]
    intro hyx
    exact hx (hyx ▸ hy)

theorem kahnInv_init (commits : List CommitNode) (hN : (oids commits).Nodup) :
    KahnInv commits ((dedupFirst (oids commits)).filter (fun x => initDeg commits x = 0)) 0
      (initDeg commits) := by
  rw [dedupFirst_eq_of_nodup hN]
  refine ⟨hN.filter _, ?_, Nat.zero_le _, ?_, ?_, ?_⟩
  · intro x hx
    exact List.mem_of_mem_filter hx
  · intro x _
    simp [initDeg]
  · intro x
    rw [List.mem_filter]
    constructor
    · rintro ⟨h1, h2⟩
      refine ⟨h1, ?_⟩
      have : initDeg commits x = 0 := by simpa using h2
      omega
    · rintro ⟨h1, h2⟩
      refine ⟨h1, ?_⟩
      have hge : 0 ≤ initDeg commits x := by
        rw [initDeg]
        positivity
      simp
      omega
  · intro j hj p hp
    have hmem := List.get_mem _ j hj
    have hfm := List.mem_filter.mp hmem
    have hz : initDeg commits ((((oids commits)).filter
        (fun x => initDeg commits x = 0)).get ⟨j, hj⟩) = 0 := by
      simpa using hfm.2
    rw [initDeg] at hz
    have hnil : rpOf commits ((((oids commits)).filter
        (fun x => initDeg commits x = 0)).get ⟨j, hj⟩) = [] := by
      apply List.length_eq_zero.mp
      exact_mod_cast hz
    rw [hnil] at hp
    cases hp

theorem kahnLoop_final (commits : List CommitNode) (hN : (oids commits).Nodup) :
    ∀ (fuel : Nat) (queue : List String) (idx : Nat) (deg : String → Int),
      KahnInv commits queue idx deg → commits.length ≤ fuel + idx →
      ∃ degf, KahnInv commits (kahnLoop (childrenOf commits) fuel queue idx deg)
        (kahnLoop (childrenOf commits) fuel queue idx deg).length degf := by
  intro fuel
  induction fuel with
  | zero =>
    intro queue idx deg inv hfuel
    have hlen : queue.length ≤ commits.length := nodup_length_le_oids inv.nodup inv.subset
    have hidx : idx = queue.length := le_antisymm inv.idx_le (by omega)
    subst hidx
    simp only [kahnLoop, List.take_length]
    exact ⟨deg, inv⟩
  | succ fuel ih =>
    intro queue idx deg inv hfuel
    by_cases h : idx < queue.length
    · have heq : kahnLoop (childrenOf commits) (fuel + 1) queue idx deg
          = kahnLoop (childrenOf commits) fuel
            (processChildren (childrenOf commits (queue.get ⟨idx, h⟩)) queue deg).1 (idx + 1)
            (processChildren (childrenOf commits (queue.get ⟨idx, h⟩)) queue deg).2 := by
        rw [kahnLoop, dif_pos h]
      rw [heq]
      exact ih _ (idx + 1) _ (kahn_step commits inv h) (by omega)
    · have hidx : idx = queue.length := le_antisymm inv.idx_le (by omega)
      subst hidx
      have heq : kahnLoop (childrenOf commits) (fuel + 1) queue queue.length deg
          = queue.take queue.length := by
        rw [kahnLoop, dif_neg (by omega)]
      rw [heq, List.take_length]
      exact ⟨deg, inv⟩

theorem topologicalSort_eq (commits : List CommitNode) :
    topologicalSort commits =
      kahnLoop (childrenOf commits) (commits.length + 1)
        ((dedupFirst (oids commits)).filter (fun x => initDeg commits x = 0)) 0
        (initDeg commits) ++
      (commits.filter (fun c => ¬ c.oid ∈ kahnLoop (childrenOf commits) (commits.length + 1)
        ((dedupFirst (oids commits)).filter (fun x => initDeg commits x = 0)) 0
        (initDeg commits))).map (fun c => c.oid) := rfl

theorem kahn_complete (commits : List CommitNode) {Qf : List String} {degf : String → Int}
    (inv : KahnInv commits Qf Qf.length degf) (rank : String → Nat)
    (hrank : ∀ c ∈ commits, ∀ p ∈ c.parents, p ∈ oids commits → rank p < rank c.oid) :
    ∀ x ∈ oids commits, x ∈ Qf := by
  suffices H : ∀ n x, x ∈ oids commits → rank x ≤ n → x ∈ Qf by
    exact fun x hx => H (rank x) x hx le_rfl
  intro n
  induction n using Nat.strong_induction_on with
  | _ n ih =>
    intro x hx hr
    by_contra hq
    have hdeg : 0 < degf x := by
      by_contra hc
      push_neg at hc
      exact hq ((inv.mem_iff x).mpr ⟨hx, hc⟩)
    have hde := inv.deg_eq x hx
    rw [List.take_length] at hde
    have hflt : ((rpOf commits x).filter (fun p => p ∈ Qf)).length
        < (rpOf commits x).length := by omega
    obtain ⟨p, hp, hpq⟩ := exists_not_mem_of_filter_length_lt hflt
    rw [rpOf] at hp
    rcases List.mem_flatMap.mp hp with ⟨c, hcf, hpp⟩
    have hcc := List.mem_filter.mp hcf
    have hcx : c.oid = x := by simpa using hcc.2
    have hpf := List.mem_filter.mp hpp
    have hpo : p ∈ oids commits := by simpa using hpf.2
    have hrankp : rank p < rank x := by
      have := hrank c hcc.1 p hpf.1 hpo
      rwa [hcx] at this
    exact hpq (ih (rank p) (by omega) p hpo le_rfl)

/-- C2: on pairwise-distinct identifiers, `topologicalSort` returns a
permutation of the input identifiers — every oid exactly once, even with
dangling parents or cycles. -/
theorem topologicalSort_permutes (commits : List CommitNode)
    (hN : (oids commits).Nodup) :
    List.Perm (topologicalSort commits) (oids commits) := by
  obtain ⟨degf, inv⟩ := kahnLoop_final commits hN (commits.length + 1) _ 0 _
    (kahnInv_init commits hN) (by omega)
  rw [topologicalSort_eq]
  set Qf := kahnLoop (childrenOf commits) (commits.length + 1)
    ((dedupFirst (oids commits)).filter (fun x => initDeg commits x = 0)) 0
    (initDeg commits) with hQf
  have hleft_nodup : ((commits.filter (fun c => ¬ c.oid ∈ Qf)).map
      (fun c => c.oid)).Nodup := by
    have hsub : List.Sublist ((commits.filter (fun c => ¬ c.oid ∈ Qf)).map
        (fun c => c.oid)) (oids commits) := (List.filter_sublist _).map _
    exact hN.sublist hsub
  have hnodup : (Qf ++ (commits.filter (fun c => ¬ c.oid ∈ Qf)).map
      (fun c => c.oid)).Nodup := by
    rw [List.nodup_append]
    refine ⟨inv.nodup, hleft_nodup, ?_⟩
    intro x hxq hxl
    rcases List.mem_map.mp hxl with ⟨c, hc, rfl⟩
    have hcf := List.mem_filter.mp hc
    have : ¬ c.oid ∈ Qf := by simpa using hcf.2
    exact this hxq
  apply (List.perm_ext_iff_of_nodup hnodup hN).mpr
  intro a
  constructor
  · intro ha
    rcases List.mem_append.mp ha with h | h
    · exact inv.subset a h
    · rcases List.mem_map.mp h with ⟨c, hc, rfl⟩
      exact List.mem_map.mpr ⟨c, (List.mem_filter.mp hc).1, rfl⟩
  · intro ha
    by_cases hq : a ∈ Qf
    · exact List.mem_append_left _ hq
    · rcases List.mem_map.mp ha with ⟨c, hc, rfl⟩
      refine List.mem_append_right _ (List.mem_map.mpr ⟨c, ?_, rfl⟩)
      exact List.mem_filter.mpr ⟨hc, by simpa using hq⟩

/-- C2 witness: a malformed two-commit cycle still yields a permutation
of both identifiers. -/
theorem topologicalSort_permutes_witness :
    (oids [⟨"x", "", ["y"], 1, [], false⟩, ⟨"y", "", ["x"], 2, [], false⟩]).Nodup ∧
    List.Perm
      (topologicalSort [⟨"x", "", ["y"], 1, [], false⟩, ⟨"y", "", ["x"], 2, [], false⟩])
      (oids [⟨"x", "", ["y"], 1, [], false⟩, ⟨"y", "", ["x"], 2, [], false⟩]) :=
  ⟨by decide, topologicalSort_permutes _ (by decide)⟩

/-- C3: on a pairwise-distinct, acyclic commit set (acyclicity given by a
ranking certificate for the resolved parent edges), every resolved
parent appears strictly before each commit listing it: roots first. -/
theorem topologicalSort_parent_first (commits : List CommitNode)
    (hN : (oids commits).Nodup)
    (hrank : ∃ rank : String → Nat, ∀ c ∈ commits, ∀ p ∈ c.parents,
      p ∈ oids commits → rank p < rank c.oid)
    {c : CommitNode} (hc : c ∈ commits) {p : String} (hp : p ∈ c.parents)
    (hres : p ∈ oids commits) :
    (topologicalSort commits).indexOf p < (topologicalSort commits).indexOf c.oid := by
  obtain ⟨rank, hr⟩ := hrank
  obtain ⟨degf, inv⟩ := kahnLoop_final commits hN (commits.length + 1) _ 0 _
    (kahnInv_init commits hN) (by omega)
  set Qf := kahnLoop (childrenOf commits) (commits.length + 1)
    ((dedupFirst (oids commits)).filter (fun x => initDeg commits x = 0)) 0
    (initDeg commits) with hQf
  have hcomp := kahn_complete commits inv rank hr
  have hleft : commits.filter (fun c2 => ¬ c2.oid ∈ Qf) = [] := by
    apply List.filter_eq_nil_iff.mpr
    intro c2 hc2
    have hin := hcomp c2.oid (List.mem_map.mpr ⟨c2, hc2, rfl⟩)
    simp [hin]
  have hts : topologicalSort commits = Qf := by
    rw [topologicalSort_eq, ← hQf, hleft]
    simp
  rw [hts]
  have hcoid : c.oid ∈ Qf := hcomp c.oid (List.mem_map.mpr ⟨c, hc, rfl⟩)
  have hjlt : Qf.indexOf c.oid < Qf.length := List.indexOf_lt_length.mpr hcoid
  have hgetj : Qf.get ⟨Qf.indexOf c.oid, hjlt⟩ = c.oid := List.indexOf_get hjlt
  have hp2 : p ∈ rpOf commits (Qf.get ⟨Qf.indexOf c.oid, hjlt⟩) := by
    rw [hgetj, rpOf]
    apply List.mem_flatMap.mpr
    refine ⟨c, List.mem_filter.mpr ⟨hc, by simp⟩,
      List.mem_filter.mpr ⟨hp, by simpa using hres⟩⟩
  have hord := inv.ordered (Qf.indexOf c.oid) hjlt p hp2
  exact mem_take_indexOf hord

/-- C3 witness: in the chain `a <- b <- c`, each resolved parent is
placed strictly earlier by the sort. -/
theorem topologicalSort_parent_first_witness :
    (topologicalSort [⟨"a", "", [], 100, [], false⟩, ⟨"b", "", ["a"], 200, [], false⟩,
      ⟨"c", "", ["b"], 300, [], false⟩]).indexOf "a" <
    (topologicalSort [⟨"a", "", [], 100, [], false⟩, ⟨"b", "", ["a"], 200, [], false⟩,
      ⟨"c", "", ["b"], 300, [], false⟩]).indexOf "b" :=
  topologicalSort_parent_first
    [⟨"a", "", [], 100, [], false⟩, ⟨"b", "", ["a"], 200, [], false⟩,
      ⟨"c", "", ["b"], 300, [], false⟩]
    (by decide)
    ⟨fun s => if s = "a" then 0 else if s = "b" then 1 else 2, by decide⟩
    (c := ⟨"b", "", ["a"], 200, [], false⟩) (by decide)
    (p := "a") (by decide) (by decide)

/-! ## C7: lane assignment for a root with two children -/

/-- C7: for a root with two strictly-newer children, `assignColumns`
gives the root's lane to exactly one of the two children, gives the
other child a different lane, and uses exactly two distinct lanes. -/
theorem assignColumns_root_two_children (ro aa bb : String) (tr ta tb : Int)
    (hra : ¬ ro = aa) (hrb : ¬ ro = bb) (hab : ¬ aa = bb)
    (hta : tr < ta) (htb : tr < tb) :
    ∃ r la lb,
      (assignColumns [⟨ro, "", [], tr, [], false⟩, ⟨aa, "", [ro], ta, [], false⟩,
        ⟨bb, "", [ro], tb, [], false⟩]).lookup ro = some r ∧
      (assignColumns [⟨ro, "", [], tr, [], false⟩, ⟨aa, "", [ro], ta, [], false⟩,
        ⟨bb, "", [ro], tb, [], false⟩]).lookup aa = some la ∧
      (assignColumns [⟨ro, "", [], tr, [], false⟩, ⟨aa, "", [ro], ta, [], false⟩,
        ⟨bb, "", [ro], tb, [], false⟩]).lookup bb = some lb ∧
      ((la = r ∧ ¬ lb = r) ∨ (lb = r ∧ ¬ la = r)) ∧
      ({r, la, lb} : Finset Nat).card = 2 := by
  have e1 : (ro == aa) = false := beq_eq_false_iff_ne.mpr hra
  have e2 : (aa == ro) = false := beq_eq_false_iff_ne.mpr (fun hh => hra hh.symm)
  have e3 : (ro == bb) = false := beq_eq_false_iff_ne.mpr hrb
  have e4 : (bb == ro) = false := beq_eq_false_iff_ne.mpr (fun hh => hrb hh.symm)
  have e5 : (aa == bb) = false := beq_eq_false_iff_ne.mpr hab
  have e6 : (bb == aa) = false := beq_eq_false_iff_ne.mpr (fun hh => hab hh.symm)
  have h1 : ¬ ta ≤ tr := not_le.mpr hta
  have h2 : ¬ tb ≤ tr := not_le.mpr htb
  by_cases h : tb ≤ ta
  · have hsort : sortDesc [⟨ro, "", [], tr, [], false⟩, ⟨aa, "", [ro], ta, [], false⟩,
        ⟨bb, "", [ro], tb, [], false⟩]
        = [⟨aa, "", [ro], ta, [], false⟩, ⟨bb, "", [ro], tb, [], false⟩,
          ⟨ro, "", [], tr, [], false⟩] := by
      simp [sortDesc, List.insertionSort, List.orderedInsert, h, h1, h2]
    have hcols : assignColumns [⟨ro, "", [], tr, [], false⟩,
        ⟨aa, "", [ro], ta, [], false⟩, ⟨bb, "", [ro], tb, [], false⟩]
        = [(ro, 0), (bb, 1), (aa, 0)] := by
      rw [assignColumns, hsort]
      simp [stepCommit, processParents, findFree, List.lookup, oids,
        e1, e2, e3, e4, e5, e6, hra, hrb, hab, List.findIdx?]
    rw [hcols]
    refine ⟨0, 0, 1, ?_, ?_, ?_, Or.inl ⟨rfl, by omega⟩, ?_⟩
    · simp [List.lookup]
    · simp [List.lookup, e2, e5]
    · simp [List.lookup, e4]
    · decide
  · have hsort : sortDesc [⟨ro, "", [], tr, [], false⟩, ⟨aa, "", [ro], ta, [], false⟩,
        ⟨bb, "", [ro], tb, [], false⟩]
        = [⟨bb, "", [ro], tb, [], false⟩, ⟨aa, "", [ro], ta, [], false⟩,
          ⟨ro, "", [], tr, [], false⟩] := by
      simp [sortDesc, List.insertionSort, List.orderedInsert, h, h1, h2]
    have hcols : assignColumns [⟨ro, "", [], tr, [], false⟩,
        ⟨aa, "", [ro], ta, [], false⟩, ⟨bb, "", [ro], tb, [], false⟩]
        = [(ro, 0), (aa, 1), (bb, 0)] := by
      rw [assignColumns, hsort]
      simp [stepCommit, processParents, findFree, List.lookup, oids,
        e1, e2, e3, e4, e5, e6, hra, hrb, hab, List.findIdx?]
    rw [hcols]
    refine ⟨0, 1, 0, ?_, ?_, ?_, Or.inr ⟨rfl, by omega⟩, ?_⟩
    · simp [List.lookup]
    · simp [List.lookup, e2]
    · simp [List.lookup, e4, e6]
    · decide

/-- C7 witness at concrete identifiers and timestamps. -/
theorem assignColumns_root_two_children_witness :
    ∃ r la lb,
      (assignColumns [⟨"root", "", [], 100, [], false⟩,
        ⟨"a", "", ["root"], 200, [], false⟩,
        ⟨"b", "", ["root"], 201, [], false⟩]).lookup "root" = some r ∧
      (assignColumns [⟨"root", "", [], 100, [], false⟩,
        ⟨"a", "", ["root"], 200, [], false⟩,
        ⟨"b", "", ["root"], 201, [], false⟩]).lookup "a" = some la ∧
      (assignColumns [⟨"root", "", [], 100, [], false⟩,
        ⟨"a", "", ["root"], 200, [], false⟩,
        ⟨"b", "", ["root"], 201, [], false⟩]).lookup "b" = some lb ∧
      ((la = r ∧ ¬ lb = r) ∨ (lb = r ∧ ¬ la = r)) ∧
      ({r, la, lb} : Finset Nat).card = 2 :=
  assignColumns_root_two_children "root" "a" "b" 100 200 201
    (by decide) (by decide) (by decide) (by decide) (by decide)

/-! ## C5/C9/C10: the quadtree -/

theorem inB_iff (b : BBox) (x y : ℚ) :
    inB b x y = true ↔ (b.x ≤ x ∧ x ≤ b.x + b.width ∧ b.y ≤ y ∧ y ≤ b.y + b.height) := by
  simp [inB, and_assoc]

theorem boundsOverlap_iff (a b : BBox) :
    boundsOverlap a b = true ↔
      (a.x ≤ b.x + b.width ∧ b.x ≤ a.x + a.width ∧
       a.y ≤ b.y + b.height ∧ b.y ≤ a.y + a.height) := by
  simp [boundsOverlap, not_or, not_lt, and_assoc]

theorem overlap_of_common_point {a s : BBox} {px py : ℚ}
    (ha : inB a px py = true) (hs : inB s px py = true) : boundsOverlap a s = true := by
  rw [inB_iff] at ha hs
  rw [boundsOverlap_iff]
  exact ⟨by linarith [ha.1, hs.2.1], by linarith [hs.1, ha.2.1],
    by linarith [ha.2.2.1, hs.2.2.2], by linarith [hs.2.2.1, ha.2.2.2]⟩

theorem inB_of_rectInside {inner outer : BBox} {px py : ℚ}
    (hr : rectInside inner outer) (hp : inB inner px py = true) :
    inB outer px py = true := by
  rw [inB_iff] at hp ⊢
  obtain ⟨h1, h2, h3, h4⟩ := hr
  exact ⟨by linarith [hp.1], by linarith [hp.2.1], by linarith [hp.2.2.1],
    by linarith [hp.2.2.2]⟩

theorem point_in_searchBox {ex ey x y r : ℚ} (hr0 : 0 < r)
    (h : distSq ex ey x y < r * r) : inB (searchBox x y r) ex ey = true := by
  rw [distSq] at h
  have hx2 : (ex - x) * (ex - x) < r * r := by nlinarith [mul_self_nonneg (ey - y)]
  have hy2 : (ey - y) * (ey - y) < r * r := by nlinarith [mul_self_nonneg (ex - x)]
  rw [inB_iff]
  unfold searchBox
  dsimp only
  refine ⟨by nlinarith, by nlinarith, by nlinarith, by nlinarith⟩

theorem quadrants_inside (b : BBox) (hw : 0 ≤ b.width) (hh : 0 ≤ b.height) :
    rectInside (quadrants b).1 b ∧ rectInside (quadrants b).2.1 b ∧
    rectInside (quadrants b).2.2.1 b ∧ rectInside (quadrants b).2.2.2 b := by
  unfold quadrants rectInside
  dsimp only
  refine ⟨⟨?_, ?_, ?_, ?_⟩, ⟨?_, ?_, ?_, ?_⟩, ⟨?_, ?_, ?_, ?_⟩, ⟨?_, ?_, ?_, ?_⟩⟩ <;>
    linarith

theorem distrib_mem {T : Type} (q0 q1 q2 q3 : BBox) :
    ∀ items : List (QEntry T),
      (∀ e ∈ (distrib q0 q1 q2 q3 items).stay, e ∈ items) ∧
      (∀ e ∈ (distrib q0 q1 q2 q3 items).l0, e ∈ items ∧ inB q0 e.x e.y = true) ∧
      (∀ e ∈ (distrib q0 q1 q2 q3 items).l1, e ∈ items ∧ inB q1 e.x e.y = true) ∧
      (∀ e ∈ (distrib q0 q1 q2 q3 items).l2, e ∈ items ∧ inB q2 e.x e.y = true) ∧
      (∀ e ∈ (distrib q0 q1 q2 q3 items).l3, e ∈ items ∧ inB q3 e.x e.y = true) := by
  intro items
  induction items with
  | nil => exact ⟨fun e he => absurd he (by simp [distrib]), fun e he => absurd he (by simp [distrib]),
      fun e he => absurd he (by simp [distrib]), fun e he => absurd he (by simp [distrib]),
      fun e he => absurd he (by simp [distrib])⟩
  | cons a rest ih =>
    obtain ⟨ihs, ih0, ih1, ih2, ih3⟩ := ih
    rw [distrib]
    by_cases h0 : inB q0 a.x a.y = true
    · rw [if_pos h0]
      refine ⟨fun e he => List.mem_cons_of_mem a (ihs e he), ?_, ?_, ?_, ?_⟩
      · intro e he
        rcases List.mem_cons.mp he with rfl | he2
        · exact ⟨List.mem_cons_self _ _, h0⟩
        · exact ⟨List.mem_cons_of_mem a (ih0 e he2).1, (ih0 e he2).2⟩
      · exact fun e he => ⟨List.mem_cons_of_mem a (ih1 e he).1, (ih1 e he).2⟩
      · exact fun e he => ⟨List.mem_cons_of_mem a (ih2 e he).1, (ih2 e he).2⟩
      · exact fun e he => ⟨List.mem_cons_of_mem a (ih3 e he).1, (ih3 e he).2⟩
    · rw [if_neg h0]
      by_cases h1 : inB q1 a.x a.y = true
      · rw [if_pos h1]
        refine ⟨fun e he => List.mem_cons_of_mem a (ihs e he),
          fun e he => ⟨List.mem_cons_of_mem a (ih0 e he).1, (ih0 e he).2⟩, ?_,
          fun e he => ⟨List.mem_cons_of_mem a (ih2 e he).1, (ih2 e he).2⟩,
          fun e he => ⟨List.mem_cons_of_mem a (ih3 e he).1, (ih3 e he).2⟩⟩
        intro e he
        rcases List.mem_cons.mp he with rfl | he2
        · exact ⟨List.mem_cons_self _ _, h1⟩
        · exact ⟨List.mem_cons_of_mem a (ih1 e he2).1, (ih1 e he2).2⟩
      · rw [if_neg h1]
        by_cases h2 : inB q2 a.x a.y = true
        · rw [if_pos h2]
          refine ⟨fun e he => List.mem_cons_of_mem a (ihs e he),
            fun e he => ⟨List.mem_cons_of_mem a (ih0 e he).1, (ih0 e he).2⟩,
            fun e he => ⟨List.mem_cons_of_mem a (ih1 e he).1, (ih1 e he).2⟩, ?_,
            fun e he => ⟨List.mem_cons_of_mem a (ih3 e he).1, (ih3 e he).2⟩⟩
          intro e he
          rcases List.mem_cons.mp he with rfl | he2
          · exact ⟨List.mem_cons_self _ _, h2⟩
          · exact ⟨List.mem_cons_of_mem a (ih2 e he2).1, (ih2 e he2).2⟩
        · rw [if_neg h2]
          by_cases h3 : inB q3 a.x a.y = true
          · rw [if_pos h3]
            refine ⟨fun e he => List.mem_cons_of_mem a (ihs e he),
              fun e he => ⟨List.mem_cons_of_mem a (ih0 e he).1, (ih0 e he).2⟩,
              fun e he => ⟨List.mem_cons_of_mem a (ih1 e he).1, (ih1 e he).2⟩,
              fun e he => ⟨List.mem_cons_of_mem a (ih2 e he).1, (ih2 e he).2⟩, ?_⟩
            intro e he
            rcases List.mem_cons.mp he with rfl | he2
            · exact ⟨List.mem_cons_self _ _, h3⟩
            · exact ⟨List.mem_cons_of_mem a (ih3 e he2).1, (ih3 e he2).2⟩
          · rw [if_neg h3]
            refine ⟨?_,
              fun e he => ⟨List.mem_cons_of_mem a (ih0 e he).1, (ih0 e he).2⟩,
              fun e he => ⟨List.mem_cons_of_mem a (ih1 e he).1, (ih1 e he).2⟩,
              fun e he => ⟨List.mem_cons_of_mem a (ih2 e he).1, (ih2 e he).2⟩,
              fun e he => ⟨List.mem_cons_of_mem a (ih3 e he).1, (ih3 e he).2⟩⟩
            intro e he
            rcases List.mem_cons.mp he with rfl | he2
            · exact List.mem_cons_self _ _
            · exact List.mem_cons_of_mem a (ihs e he2)

theorem distrib_perm {T : Type} (q0 q1 q2 q3 : BBox) :
    ∀ items : List (QEntry T),
      List.Perm ((distrib q0 q1 q2 q3 items).stay ++ (distrib q0 q1 q2 q3 items).l0 ++
        (distrib q0 q1 q2 q3 items).l1 ++ (distrib q0 q1 q2 q3 items).l2 ++
        (distrib q0 q1 q2 q3 items).l3) items := by
  intro items
  induction items with
  | nil => simp [distrib]
  | cons a rest ih =>
    rw [distrib]
    by_cases h0 : inB q0 a.x a.y = true
    · rw [if_pos h0]
      dsimp only
      rw [← Multiset.coe_eq_coe] at ih ⊢
      simp only [← Multiset.coe_add, ← Multiset.cons_coe] at ih ⊢
      simp only [Multiset.add_cons, Multiset.cons_add]
      rw [ih]
    · rw [if_neg h0]
      by_cases h1 : inB q1 a.x a.y = true
      · rw [if_pos h1]
        dsimp only
        rw [← Multiset.coe_eq_coe] at ih ⊢
        simp only [← Multiset.coe_add, ← Multiset.cons_coe] at ih ⊢
        simp only [Multiset.add_cons, Multiset.cons_add]
        rw [ih]
      · rw [if_neg h1]
        by_cases h2 : inB q2 a.x a.y = true
        · rw [if_pos h2]
          dsimp only
          rw [← Multiset.coe_eq_coe] at ih ⊢
          simp only [← Multiset.coe_add, ← Multiset.cons_coe] at ih ⊢
          simp only [Multiset.add_cons, Multiset.cons_add]
          rw [ih]
        · rw [if_neg h2]
          by_cases h3 : inB q3 a.x a.y = true
          · rw [if_pos h3]
            dsimp only
            rw [← Multiset.coe_eq_coe] at ih ⊢
            simp only [← Multiset.coe_add, ← Multiset.cons_coe] at ih ⊢
            simp only [Multiset.add_cons, Multiset.cons_add]
            rw [ih]
          · rw [if_neg h3]
            dsimp only
            rw [← Multiset.coe_eq_coe] at ih ⊢
            simp only [← Multiset.coe_add, ← Multiset.cons_coe] at ih ⊢
            simp only [Multiset.add_cons, Multiset.cons_add]
            rw [ih]

theorem subdivideNode_bounds {T : Type} (b : BBox) (items : List (QEntry T)) :
    (subdivideNode b items).bounds = b := rfl

theorem insertInto_bounds {T : Type} (mi md : Nat) :
    ∀ (node : QNode T) (e : QEntry T) (depth : Nat),
      (insertInto mi md node e depth).bounds = node.bounds := by
  intro node
  induction node with
  | leaf b items =>
    intro e depth
    rw [insertInto]
    split_ifs <;> rfl
  | quad b items c0 c1 c2 c3 ih0 ih1 ih2 ih3 =>
    intro e depth
    rw [insertInto]
    split_ifs <;> rfl

theorem subdivideNode_entries {T : Type} (b : BBox) (items : List (QEntry T)) :
    List.Perm (subdivideNode b items).entries items := by
  rw [subdivideNode]
  rw [QNode.entries]
  have h := distrib_perm (quadrants b).1 (quadrants b).2.1 (quadrants b).2.2.1
    (quadrants b).2.2.2 items
  simpa [QNode.entries, List.append_assoc] using h

theorem subdivideNode_wf {T : Type} (b : BBox) (items : List (QEntry T))
    (hw : 0 ≤ b.width) (hh : 0 ≤ b.height)
    (hitems : ∀ e ∈ items, inB b e.x e.y = true) : WFQ (subdivideNode b items) := by
  obtain ⟨hq0, hq1, hq2, hq3⟩ := quadrants_inside b hw hh
  obtain ⟨hstay, h0, h1, h2, h3⟩ := distrib_mem (quadrants b).1 (quadrants b).2.1
    (quadrants b).2.2.1 (quadrants b).2.2.2 items
  have hqw : 0 ≤ b.width / 2 := by linarith
  have hqh : 0 ≤ b.height / 2 := by linarith
  rw [subdivideNode]
  refine ⟨hw, hh, fun e he => hitems e (hstay e he), hq0, hq1, hq2, hq3,
    ⟨hqw, hqh, fun e he => (h0 e he).2⟩, ⟨hqw, hqh, fun e he => (h1 e he).2⟩,
    ⟨hqw, hqh, fun e he => (h2 e he).2⟩, ⟨hqw, hqh, fun e he => (h3 e he).2⟩⟩

theorem insertInto_wf {T : Type} (mi md : Nat) :
    ∀ (node : QNode T) (e : QEntry T) (depth : Nat),
      WFQ node → WFQ (insertInto mi md node e depth) := by
  intro node
  induction node with
  | leaf b items =>
    intro e depth hwf
    obtain ⟨hw, hh, hitems⟩ := hwf
    rw [insertInto]
    by_cases hin : inB b e.x e.y = true
    · rw [if_pos hin]
      have hall : ∀ e2 ∈ items ++ [e], inB b e2.x e2.y = true := by
        intro e2 he2
        rcases List.mem_append.mp he2 with h | h
        · exact hitems e2 h
        · have : e2 = e := by simpa using h
          subst this
          exact hin
      by_cases hc : mi < (items ++ [e]).length ∧ depth < md
      · rw [if_pos hc]
        exact subdivideNode_wf b (items ++ [e]) hw hh hall
      · rw [if_neg hc]
        exact ⟨hw, hh, hall⟩
    · rw [if_neg hin]
      exact ⟨hw, hh, hitems⟩
  | quad b items c0 c1 c2 c3 ih0 ih1 ih2 ih3 =>
    intro e depth hwf
    obtain ⟨hw, hh, hitems, hr0, hr1, hr2, hr3, hw0, hw1, hw2, hw3⟩ := hwf
    rw [insertInto]
    by_cases hin : inB b e.x e.y = true
    · rw [if_pos hin]
      by_cases h0 : inB c0.bounds e.x e.y = true
      · rw [if_pos h0]
        exact ⟨hw, hh, hitems, by rw [insertInto_bounds]; exact hr0, hr1, hr2, hr3,
          ih0 e (depth + 1) hw0, hw1, hw2, hw3⟩
      · rw [if_neg h0]
        by_cases h1 : inB c1.bounds e.x e.y = true
        · rw [if_pos h1]
          exact ⟨hw, hh, hitems, hr0, by rw [insertInto_bounds]; exact hr1, hr2, hr3,
            hw0, ih1 e (depth + 1) hw1, hw2, hw3⟩
        · rw [if_neg h1]
          by_cases h2 : inB c2.bounds e.x e.y = true
          · rw [if_pos h2]
            exact ⟨hw, hh, hitems, hr0, hr1, by rw [insertInto_bounds]; exact hr2, hr3,
              hw0, hw1, ih2 e (depth + 1) hw2, hw3⟩
          · rw [if_neg h2]
            by_cases h3 : inB c3.bounds e.x e.y = true
            · rw [if_pos h3]
              exact ⟨hw, hh, hitems, hr0, hr1, hr2, by rw [insertInto_bounds]; exact hr3,
                hw0, hw1, hw2, ih3 e (depth + 1) hw3⟩
            · rw [if_neg h3]
              refine ⟨hw, hh, ?_, hr0, hr1, hr2, hr3, hw0, hw1, hw2, hw3⟩
              intro e2 he2
              rcases List.mem_append.mp he2 with h | h
              · exact hitems e2 h
              · have : e2 = e := by simpa using h
                subst this
                exact hin
    · rw [if_neg hin]
      exact ⟨hw, hh, hitems, hr0, hr1, hr2, hr3, hw0, hw1, hw2, hw3⟩

theorem insertInto_oob {T : Type} (mi md : Nat) (node : QNode T) (e : QEntry T)
    (depth : Nat) (h : ¬ inB node.bounds e.x e.y = true) :
    insertInto mi md node e depth = node := by
  cases node with
  | leaf b items => rw [insertInto, if_neg (by simpa [QNode.bounds] using h)]
  | quad b items c0 c1 c2 c3 => rw [insertInto, if_neg (by simpa [QNode.bounds] using h)]

theorem insertInto_entries {T : Type} (mi md : Nat) :
    ∀ (node : QNode T) (e : QEntry T) (depth : Nat),
      inB node.bounds e.x e.y = true →
      List.Perm (insertInto mi md node e depth).entries (e :: node.entries) := by
  intro node
  induction node with
  | leaf b items =>
    intro e depth hin
    rw [insertInto, if_pos (by simpa [QNode.bounds] using hin)]
    by_cases hc : mi < (items ++ [e]).length ∧ depth < md
    · rw [if_pos hc]
      exact (subdivideNode_entries b (items ++ [e])).trans
        (List.perm_append_singleton e items)
    · rw [if_neg hc]
      exact List.perm_append_singleton e items
  | quad b items c0 c1 c2 c3 ih0 ih1 ih2 ih3 =>
    intro e depth hin
    rw [insertInto, if_pos (by simpa [QNode.bounds] using hin)]
    by_cases h0 : inB c0.bounds e.x e.y = true
    · rw [if_pos h0]
      have hch := ih0 e (depth + 1) (by simpa [QNode.bounds] using h0)
      rw [QNode.entries, QNode.entries]
      rw [← Multiset.coe_eq_coe] at hch ⊢
      simp only [← Multiset.coe_add, ← Multiset.cons_coe] at hch ⊢
      rw [hch]
      simp only [Multiset.add_cons, Multiset.cons_add]
    · rw [if_neg h0]
      by_cases h1 : inB c1.bounds e.x e.y = true
      · rw [if_pos h1]
        have hch := ih1 e (depth + 1) (by simpa [QNode.bounds] using h1)
        rw [QNode.entries, QNode.entries]
        rw [← Multiset.coe_eq_coe] at hch ⊢
        simp only [← Multiset.coe_add, ← Multiset.cons_coe] at hch ⊢
        rw [hch]
        simp only [Multiset.add_cons, Multiset.cons_add]
      · rw [if_neg h1]
        by_cases h2 : inB c2.bounds e.x e.y = true
        · rw [if_pos h2]
          have hch := ih2 e (depth + 1) (by simpa [QNode.bounds] using h2)
          rw [QNode.entries, QNode.entries]
          rw [← Multiset.coe_eq_coe] at hch ⊢
          simp only [← Multiset.coe_add, ← Multiset.cons_coe] at hch ⊢
          rw [hch]
          simp only [Multiset.add_cons, Multiset.cons_add]
        · rw [if_neg h2]
          by_cases h3 : inB c3.bounds e.x e.y = true
          · rw [if_pos h3]
            have hch := ih3 e (depth + 1) (by simpa [QNode.bounds] using h3)
            rw [QNode.entries, QNode.entries]
            rw [← Multiset.coe_eq_coe] at hch ⊢
            simp only [← Multiset.coe_add, ← Multiset.cons_coe] at hch ⊢
            rw [hch]
            simp only [Multiset.add_cons, Multiset.cons_add]
          · rw [if_neg h3]
            rw [QNode.entries, QNode.entries]
            rw [← Multiset.coe_eq_coe]
            simp only [← Multiset.coe_add, ← Multiset.cons_coe]
            simp only [Multiset.add_cons, Multiset.cons_add]
            simp

theorem entries_in_bounds {T : Type} :
    ∀ (node : QNode T), WFQ node → ∀ e ∈ node.entries, inB node.bounds e.x e.y = true := by
  intro node
  induction node with
  | leaf b items =>
    intro hwf e he
    exact hwf.2.2 e (by simpa [QNode.entries] using he)
  | quad b items c0 c1 c2 c3 ih0 ih1 ih2 ih3 =>
    intro hwf e he
    obtain ⟨hw, hh, hitems, hr0, hr1, hr2, hr3, hw0, hw1, hw2, hw3⟩ := hwf
    rw [QNode.entries] at he
    show inB b e.x e.y = true
    rcases List.mem_append.mp he with he1 | he4
    · rcases List.mem_append.mp he1 with he2 | he4
      · rcases List.mem_append.mp he2 with he3 | he4
        · rcases List.mem_append.mp he3 with he5 | he4
          · exact hitems e he5
          · exact inB_of_rectInside hr0 (ih0 hw0 e he4)
        · exact inB_of_rectInside hr1 (ih1 hw1 e he4)
      · exact inB_of_rectInside hr2 (ih2 hw2 e he4)
    · exact inB_of_rectInside hr3 (ih3 hw3 e he4)

theorem visit_sound {T : Type} (x y r : ℚ) :
    ∀ (node : QNode T) (e : QEntry T), e ∈ visitList x y r node → e ∈ node.entries := by
  intro node
  induction node with
  | leaf b items =>
    intro e he
    rw [visitList] at he
    rw [QNode.entries]
    by_cases h : boundsOverlap b (searchBox x y r) = true
    · rwa [if_pos h] at he
    · rw [if_neg h] at he
      cases he
  | quad b items c0 c1 c2 c3 ih0 ih1 ih2 ih3 =>
    intro e he
    rw [visitList] at he
    rw [QNode.entries]
    by_cases h : boundsOverlap b (searchBox x y r) = true
    · rw [if_pos h] at he
      simp only [List.mem_append] at he ⊢
      rcases he with ((((h1 | h2) | h3) | h4) | h5)
      · exact Or.inl (Or.inl (Or.inl (Or.inl h1)))
      · exact Or.inl (Or.inl (Or.inl (Or.inr (ih0 e h2))))
      · exact Or.inl (Or.inl (Or.inr (ih1 e h3)))
      · exact Or.inl (Or.inr (ih2 e h4))
      · exact Or.inr (ih3 e h5)
    · rw [if_neg h] at he
      cases he

theorem visit_complete {T : Type} (x y r : ℚ) (hr : 0 < r) :
    ∀ (node : QNode T), WFQ node → ∀ e ∈ node.entries,
      distSq e.x e.y x y < r * r → e ∈ visitList x y r node := by
  intro node
  induction node with
  | leaf b items =>
    intro hwf e he hd
    rw [QNode.entries] at he
    have hib : inB b e.x e.y = true := hwf.2.2 e he
    have hover : boundsOverlap b (searchBox x y r) = true :=
      overlap_of_common_point hib (point_in_searchBox hr hd)
    rw [visitList, if_pos hover]
    exact he
  | quad b items c0 c1 c2 c3 ih0 ih1 ih2 ih3 =>
    intro hwf e he hd
    have hwf2 := hwf
    obtain ⟨hw, hh, hitems, hr0, hr1, hr2, hr3, hw0, hw1, hw2, hw3⟩ := hwf2
    have hib : inB b e.x e.y = true :=
      entries_in_bounds (QNode.quad b items c0 c1 c2 c3) hwf e he
    have hover : boundsOverlap b (searchBox x y r) = true :=
      overlap_of_common_point hib (point_in_searchBox hr hd)
    rw [visitList, if_pos hover]
    rw [QNode.entries] at he
    simp only [List.mem_append] at he ⊢
    rcases he with ((((h1 | h2) | h3) | h4) | h5)
    · exact Or.inl (Or.inl (Or.inl (Or.inl h1)))
    · exact Or.inl (Or.inl (Or.inl (Or.inr (ih0 hw0 e h2 hd))))
    · exact Or.inl (Or.inl (Or.inr (ih1 hw1 e h3 hd)))
    · exact Or.inl (Or.inr (ih2 hw2 e h4 hd))
    · exact Or.inr (ih3 hw3 e h5 hd)

theorem near_fold_spec {T : Type} (x y : ℚ) :
    ∀ (l : List (QEntry T)) (acc : Option T × ℚ),
      (l.foldl (fun best e =>
        if distSq e.x e.y x y < best.2 then (some e.item, distSq e.x e.y x y) else best)
        acc).2 ≤ acc.2 ∧
      (∀ e ∈ l, (l.foldl (fun best e =>
        if distSq e.x e.y x y < best.2 then (some e.item, distSq e.x e.y x y) else best)
        acc).2 ≤ distSq e.x e.y x y) ∧
      (((l.foldl (fun best e =>
        if distSq e.x e.y x y < best.2 then (some e.item, distSq e.x e.y x y) else best)
        acc).1 = acc.1 ∧ (l.foldl (fun best e =>
        if distSq e.x e.y x y < best.2 then (some e.item, distSq e.x e.y x y) else best)
        acc).2 = acc.2) ∨
        ∃ e ∈ l, (l.foldl (fun best e =>
          if distSq e.x e.y x y < best.2 then (some e.item, distSq e.x e.y x y) else best)
          acc).1 = some e.item ∧ (l.foldl (fun best e =>
          if distSq e.x e.y x y < best.2 then (some e.item, distSq e.x e.y x y) else best)
          acc).2 = distSq e.x e.y x y ∧ distSq e.x e.y x y < acc.2) := by
  intro l
  induction l with
  | nil => intro acc; exact ⟨le_refl _, fun e he => absurd he (by simp), Or.inl ⟨rfl, rfl⟩⟩
  | cons a rest ih =>
    intro acc
    rw [List.foldl_cons]
    by_cases h : distSq a.x a.y x y < acc.2
    · rw [if_pos h]
      obtain ⟨ih1, ih2, ih3⟩ := ih (some a.item, distSq a.x a.y x y)
      refine ⟨le_trans ih1 (le_of_lt h), ?_, ?_⟩
      · intro e he
        rcases List.mem_cons.mp he with rfl | he2
        · exact ih1
        · exact ih2 e he2
      · rcases ih3 with ⟨hf1, hf2⟩ | ⟨e, he, hf1, hf2, hf3⟩
        · exact Or.inr ⟨a, List.mem_cons_self a rest, hf1, hf2, h⟩
        · exact Or.inr ⟨e, List.mem_cons_of_mem a he, hf1, hf2, lt_trans hf3 h⟩
    · rw [if_neg h]
      obtain ⟨ih1, ih2, ih3⟩ := ih acc
      refine ⟨ih1, ?_, ?_⟩
      · intro e he
        rcases List.mem_cons.mp he with rfl | he2
        · exact le_trans ih1 (not_lt.mp h)
        · exact ih2 e he2
      · rcases ih3 with ⟨hf1, hf2⟩ | ⟨e, he, hf1, hf2, hf3⟩
        · exact Or.inl ⟨hf1, hf2⟩
        · exact Or.inr ⟨e, List.mem_cons_of_mem a he, hf1, hf2, hf3⟩

theorem queryNearest_spec {T : Type} (qt : Quadtree T) (x y r : ℚ) (hr : 0 < r)
    (hwf : WFQ qt.root) :
    (∀ v, qt.queryNearest x y r = some v →
      ∃ e ∈ qt.root.entries, e.item = v ∧ distSq e.x e.y x y < r * r ∧
        ∀ e2 ∈ qt.root.entries, distSq e.x e.y x y ≤ distSq e2.x e2.y x y) ∧
    (qt.queryNearest x y r = none ↔
      ∀ e ∈ qt.root.entries, r * r ≤ distSq e.x e.y x y) := by
  obtain ⟨h1, h2, h3⟩ := near_fold_spec x y (visitList x y r qt.root)
    ((none : Option T), r * r)
  rw [Quadtree.queryNearest]
  constructor
  · intro v hv
    rcases h3 with ⟨hf1, _⟩ | ⟨e, he, hf1, hf2, hf3⟩
    · rw [hv] at hf1
      cases hf1
    · refine ⟨e, visit_sound x y r qt.root e he, ?_, hf3.trans_le (le_refl _), ?_⟩
      · rw [hv] at hf1
        exact (Option.some_injective T hf1).symm
      · intro e2 he2
        by_contra hc
        push_neg at hc
        have hd2 : distSq e2.x e2.y x y < r * r := lt_trans hc hf3
        have hv2 := visit_complete x y r hr qt.root hwf e2 he2 hd2
        have := h2 e2 hv2
        rw [hf2] at this
        exact absurd hc (not_lt.mpr this)
  · constructor
    · intro hnone e he
      rcases h3 with ⟨hf1, hf2⟩ | ⟨e2, he2, hf1, _, _⟩
      · by_contra hc
        push_neg at hc
        have hv2 := visit_complete x y r hr qt.root hwf e he hc
        have := h2 e hv2
        rw [hf2] at this
        exact absurd hc (not_lt.mpr this)
      · rw [hnone] at hf1
        cases hf1
    · intro hall
      rcases h3 with ⟨hf1, _⟩ | ⟨e, he, _, _, hf3⟩
      · exact hf1
      · exact absurd hf3 (not_lt.mpr (hall e (visit_sound x y r qt.root e he)))

theorem insert_root_bounds {T : Type} (qt : Quadtree T) (item : T) (x y : ℚ) :
    (qt.insert item x y).root.bounds = qt.root.bounds := by
  rw [Quadtree.insert]
  exact insertInto_bounds qt.maxItems qt.maxDepth qt.root ⟨item, x, y⟩ 0

theorem insertList_root_bounds {T : Type} :
    ∀ (entries : List (QEntry T)) (qt : Quadtree T),
      (insertList qt entries).root.bounds = qt.root.bounds := by
  intro entries
  induction entries with
  | nil => intro qt; rfl
  | cons e rest ih =>
    intro qt
    rw [insertList, List.foldl_cons, ← insertList]
    rw [ih (qt.insert e.item e.x e.y), insert_root_bounds]

theorem insertList_wf {T : Type} :
    ∀ (entries : List (QEntry T)) (qt : Quadtree T),
      WFQ qt.root → WFQ (insertList qt entries).root := by
  intro entries
  induction entries with
  | nil => intro qt h; exact h
  | cons e rest ih =>
    intro qt h
    rw [insertList, List.foldl_cons, ← insertList]
    apply ih
    rw [Quadtree.insert]
    exact insertInto_wf qt.maxItems qt.maxDepth qt.root ⟨e.item, e.x, e.y⟩ 0 h

theorem insertList_entries_perm {T : Type} :
    ∀ (entries : List (QEntry T)) (qt : Quadtree T),
      (∀ e ∈ entries, inB qt.root.bounds e.x e.y = true) →
      List.Perm (insertList qt entries).root.entries (entries ++ qt.root.entries) := by
  intro entries
  induction entries with
  | nil => intro qt _; simp [insertList]
  | cons e rest ih =>
    intro qt hin
    rw [insertList, List.foldl_cons, ← insertList]
    have hbe : (qt.insert e.item e.x e.y).root.bounds = qt.root.bounds :=
      insert_root_bounds qt e.item e.x e.y
    have hih := ih (qt.insert e.item e.x e.y) (by
      intro e2 he2
      rw [hbe]
      exact hin e2 (List.mem_cons_of_mem e he2))
    have hone : List.Perm (qt.insert e.item e.x e.y).root.entries
        (e :: qt.root.entries) := by
      rw [Quadtree.insert]
      exact insertInto_entries qt.maxItems qt.maxDepth qt.root ⟨e.item, e.x, e.y⟩ 0
        (hin e (List.mem_cons_self e rest))
    refine hih.trans ?_
    refine (List.Perm.append_left rest hone).trans ?_
    exact List.perm_middle

/-- C5: after any sequence of in-bounds inserts, `queryNearest` returns
an inserted item at minimal squared distance, strictly within `radius²`
(the source keeps `d < bestDist` with `bestDist` seeded at `radius²`),
and returns `none` exactly when no inserted item is strictly within the
radius. -/
theorem queryNearest_correct {T : Type} (bounds : BBox) (mi md : Nat)
    (entries : List (QEntry T)) (x y r : ℚ)
    (hw : 0 ≤ bounds.width) (hh : 0 ≤ bounds.height)
    (hin : ∀ e ∈ entries, inB bounds e.x e.y = true) (hr : 0 < r) :
    (∀ v, (insertList (Quadtree.make bounds mi md) entries).queryNearest x y r = some v →
      ∃ e ∈ entries, e.item = v ∧ distSq e.x e.y x y < r * r ∧
        ∀ e2 ∈ entries, distSq e.x e.y x y ≤ distSq e2.x e2.y x y) ∧
    ((insertList (Quadtree.make bounds mi md) entries).queryNearest x y r = none ↔
      ∀ e ∈ entries, r * r ≤ distSq e.x e.y x y) := by
  have hwf0 : WFQ ((Quadtree.make (T := T) bounds mi md).root) :=
    ⟨hw, hh, fun e he => absurd he (List.not_mem_nil e)⟩
  have hwf := insertList_wf entries (Quadtree.make bounds mi md) hwf0
  have hperm : List.Perm (insertList (Quadtree.make (T := T) bounds mi md)
      entries).root.entries entries := by
    have h := insertList_entries_perm entries (Quadtree.make bounds mi md) hin
    simpa [Quadtree.make, QNode.entries] using h
  obtain ⟨hsome, hnone⟩ := queryNearest_spec
    (insertList (Quadtree.make bounds mi md) entries) x y r hr hwf
  constructor
  · intro v hv
    obtain ⟨e, he, hitem, hd, hmin⟩ := hsome v hv
    exact ⟨e, hperm.mem_iff.mp he, hitem, hd,
      fun e2 he2 => hmin e2 (hperm.mem_iff.mpr he2)⟩
  · rw [hnone]
    constructor
    · intro h e he
      exact h e (hperm.mem_iff.mpr he)
    · intro h e he
      exact h e (hperm.mem_iff.mp he)

/-- C5 witness: three points in a 100×100 bound. -/
theorem queryNearest_correct_witness :
    (0 : ℚ) ≤ (100 : ℚ) ∧
    ((∀ v, (insertList (Quadtree.make ⟨0, 0, 100, 100⟩ 4 8)
        [⟨"A", 10, 10⟩, ⟨"B", 50, 50⟩, ⟨"C", 90, 90⟩]).queryNearest 11 11 20 = some v →
      ∃ e ∈ [(⟨"A", 10, 10⟩ : QEntry String), ⟨"B", 50, 50⟩, ⟨"C", 90, 90⟩],
        e.item = v ∧ distSq e.x e.y 11 11 < 20 * 20 ∧
        ∀ e2 ∈ [(⟨"A", 10, 10⟩ : QEntry String), ⟨"B", 50, 50⟩, ⟨"C", 90, 90⟩],
          distSq e.x e.y 11 11 ≤ distSq e2.x e2.y 11 11) ∧
    ((insertList (Quadtree.make ⟨0, 0, 100, 100⟩ 4 8)
        [⟨"A", 10, 10⟩, ⟨"B", 50, 50⟩, ⟨"C", 90, 90⟩]).queryNearest 11 11 20 = none ↔
      ∀ e ∈ [(⟨"A", 10, 10⟩ : QEntry String), ⟨"B", 50, 50⟩, ⟨"C", 90, 90⟩],
        (20 : ℚ) * 20 ≤ distSq e.x e.y 11 11)) :=
  ⟨by norm_num,
    queryNearest_correct ⟨0, 0, 100, 100⟩ 4 8
      [⟨"A", 10, 10⟩, ⟨"B", 50, 50⟩, ⟨"C", 90, 90⟩] 11 11 20
      (by norm_num) (by norm_num)
      (by
        intro e he
        simp only [List.mem_cons, List.not_mem_nil, or_false] at he
        rcases he with rfl | rfl | rfl <;> norm_num [inB])
      (by norm_num)⟩

/-- C9: inserting a point outside the root's bounds is a no-op: the tree
is unchanged, so every later `queryNearest` and `queryRect` answers as if
the insert had never happened. -/
theorem insert_oob_noop {T : Type} (qt : Quadtree T) (item : T) (x y : ℚ)
    (h : ¬ inB qt.root.bounds x y = true) :
    qt.insert item x y = qt ∧
    (∀ qx qy r, (qt.insert item x y).queryNearest qx qy r = qt.queryNearest qx qy r) ∧
    (∀ rect, (qt.insert item x y).queryRect rect = qt.queryRect rect) := by
  have h1 : qt.insert item x y = qt := by
    rw [Quadtree.insert,
      insertInto_oob qt.maxItems qt.maxDepth qt.root ⟨item, x, y⟩ 0 h]
  exact ⟨h1, fun qx qy r => by rw [h1], fun rect => by rw [h1]⟩

/-- C9 witness: `(200, 200)` lies outside a 100×100 root. -/
theorem insert_oob_noop_witness :
    ¬ inB ((Quadtree.make (T := String) ⟨0, 0, 100, 100⟩ 4 8).root.bounds) 200 200 = true ∧
    (Quadtree.make (T := String) ⟨0, 0, 100, 100⟩ 4 8).insert "X" 200 200 =
      Quadtree.make ⟨0, 0, 100, 100⟩ 4 8 :=
  ⟨by norm_num [inB, Quadtree.make, QNode.bounds],
    (insert_oob_noop (Quadtree.make ⟨0, 0, 100, 100⟩ 4 8) "X" 200 200
      (by norm_num [inB, Quadtree.make, QNode.bounds])).1⟩

/-- C10: the structural quadtree invariant — entries inside their node's
bounds and child quadrants inside their parent — holds for a freshly
constructed tree over a rectangle with nonnegative extents and after
every sequence of `insert` calls (in-bounds or not). -/
theorem quadtree_invariant {T : Type} (bounds : BBox) (mi md : Nat)
    (hw : 0 ≤ bounds.width) (hh : 0 ≤ bounds.height) (entries : List (QEntry T)) :
    WFQ ((Quadtree.make (T := T) bounds mi md).root) ∧
    WFQ ((insertList (Quadtree.make (T := T) bounds mi md) entries).root) := by
  have hwf0 : WFQ ((Quadtree.make (T := T) bounds mi md).root) :=
    ⟨hw, hh, fun e he => absurd he (List.not_mem_nil e)⟩
  exact ⟨hwf0, insertList_wf entries _ hwf0⟩

/-- C10 witness: a subdividing insert sequence over a 100×100 bound,
with one out-of-bounds point. -/
theorem quadtree_invariant_witness :
    (0 : ℚ) ≤ (100 : ℚ) ∧
    WFQ ((insertList (Quadtree.make (T := Nat) ⟨0, 0, 100, 100⟩ 1 8)
      [⟨1, 10, 10⟩, ⟨2, 20, 20⟩, ⟨3, 80, 80⟩, ⟨4, 500, 500⟩]).root) :=
  ⟨by norm_num,
    (quadtree_invariant ⟨0, 0, 100, 100⟩ 1 8 (by norm_num) (by norm_num)
      [⟨1, 10, 10⟩, ⟨2, 20, 20⟩, ⟨3, 80, 80⟩, ⟨4, 500, 500⟩]).2⟩

/-! ## C6: layout/index round trip -/

theorem mkLayoutNode_y (cols : List (String × Nat)) (c : CommitNode) (row : Nat) :
    (mkLayoutNode cols c row).y = layoutPadding + (row : ℚ) * rowSpacing := rfl

theorem mkLayoutNode_row (cols : List (String × Nat)) (c : CommitNode) (row : Nat) :
    (mkLayoutNode cols c row).row = row := rfl

theorem mkLayoutNode_x (cols : List (String × Nat)) (c : CommitNode) (row : Nat) :
    (mkLayoutNode cols c row).x
      = layoutPadding + ((mkLayoutNode cols c row).col : ℚ) * colSpacing := rfl

theorem mkNodes_mem {cols : List (String × Nat)} :
    ∀ (l : List CommitNode) (r : Nat) (m : LayoutNode), m ∈ mkNodes cols l r →
      ∃ (i : Nat) (h : i < l.length), m = mkLayoutNode cols (l.get ⟨i, h⟩) (r + i) := by
  intro l
  induction l with
  | nil => intro r m hm; cases hm
  | cons c t ih =>
    intro r m hm
    rw [mkNodes] at hm
    rcases List.mem_cons.mp hm with rfl | hm2
    · exact ⟨0, by simp, by simp⟩
    · obtain ⟨i, hi, he⟩ := ih (r + 1) m hm2
      refine ⟨i + 1, by simpa using hi, ?_⟩
      rw [he]
      congr 1
      omega

theorem mkNodes_y_inj {cols : List (String × Nat)} {l : List CommitNode}
    {m1 m2 : LayoutNode} (h1 : m1 ∈ mkNodes cols l 0) (h2 : m2 ∈ mkNodes cols l 0)
    (hy : m1.y = m2.y) : m1 = m2 := by
  obtain ⟨i, hi, rfl⟩ := mkNodes_mem l 0 m1 h1
  obtain ⟨j, hj, rfl⟩ := mkNodes_mem l 0 m2 h2
  rw [mkLayoutNode_y, mkLayoutNode_y, rowSpacing] at hy
  have hij : (i : ℚ) = (j : ℚ) := by
    push_cast at hy
    linarith
  have : i = j := Nat.cast_injective hij
  subst this
  rfl

theorem computeLayout_ne (commits : List CommitNode) (hne : commits ≠ []) :
    computeLayout commits =
      ⟨mkNodes (assignColumns commits) (sortDesc commits) 0,
        mkEdges (mkNodes (assignColumns commits) (sortDesc commits) 0),
        max (layoutPadding * 2 +
          (maxColOf (mkNodes (assignColumns commits) (sortDesc commits) 0) : ℚ) *
            colSpacing) 200,
        max (layoutPadding * 2 +
          (((mkNodes (assignColumns commits) (sortDesc commits) 0).length - 1 : ℕ) : ℚ) *
            rowSpacing) 200⟩ := by
  rw [computeLayout, if_neg (by simpa [List.length_eq_zero] using hne)]

theorem layout_nodes_inB (commits : List CommitNode) (hne : commits ≠ []) :
    ∀ m ∈ (computeLayout commits).nodes,
      inB ⟨0, 0, (computeLayout commits).width + 200, (computeLayout commits).height + 200⟩
        m.x m.y = true := by
  intro m hm
  rw [computeLayout_ne commits hne] at hm ⊢
  dsimp only at hm ⊢
  obtain ⟨i, hi, rfl⟩ := mkNodes_mem _ 0 m hm
  rw [inB_iff]
  dsimp only
  set c := (sortDesc commits).get ⟨i, hi⟩
  set nodes := mkNodes (assignColumns commits) (sortDesc commits) 0 with hnodes
  have hcolmem : (mkLayoutNode (assignColumns commits) c (0 + i)).col ∈
      nodes.map (fun n => n.col) :=
    List.mem_map.mpr ⟨mkLayoutNode (assignColumns commits) c (0 + i), hm, rfl⟩
  have hcolle : (mkLayoutNode (assignColumns commits) c (0 + i)).col ≤ maxColOf nodes :=
    mem_foldr_max_le hcolmem
  have hcolq : ((mkLayoutNode (assignColumns commits) c (0 + i)).col : ℚ)
      ≤ (maxColOf nodes : ℚ) := Nat.cast_le.mpr hcolle
  have hrowlt : i < nodes.length := by
    rw [hnodes, mkNodes_length]
    exact hi
  have hrowle : i ≤ nodes.length - 1 := by omega
  have hrowq : (i : ℚ) ≤ ((nodes.length - 1 : ℕ) : ℚ) := Nat.cast_le.mpr hrowle
  have hwmax : layoutPadding * 2 + (maxColOf nodes : ℚ) * colSpacing
      ≤ max (layoutPadding * 2 + (maxColOf nodes : ℚ) * colSpacing) 200 :=
    le_max_left _ _
  have hhmax : layoutPadding * 2 + ((nodes.length - 1 : ℕ) : ℚ) * rowSpacing
      ≤ max (layoutPadding * 2 + ((nodes.length - 1 : ℕ) : ℚ) * rowSpacing) 200 :=
    le_max_left _ _
  rw [mkLayoutNode_x, mkLayoutNode_y]
  have hcol0 : (0 : ℚ) ≤ ((mkLayoutNode (assignColumns commits) c (0 + i)).col : ℚ) :=
    Nat.cast_nonneg _
  have hzi : ((0 + i : Nat) : ℚ) = (i : ℚ) := by push_cast; ring
  have hpad : (0 : ℚ) ≤ layoutPadding := by norm_num [layoutPadding]
  have hcsn : (0 : ℚ) ≤ colSpacing := by norm_num [colSpacing]
  have hrsn : (0 : ℚ) ≤ rowSpacing := by norm_num [rowSpacing]
  have hm1 : ((mkLayoutNode (assignColumns commits) c (0 + i)).col : ℚ) * colSpacing
      ≤ (maxColOf nodes : ℚ) * colSpacing := mul_le_mul_of_nonneg_right hcolq hcsn
  have hm2 : (0 : ℚ) ≤ ((mkLayoutNode (assignColumns commits) c (0 + i)).col : ℚ) *
      colSpacing := mul_nonneg hcol0 hcsn
  have hm3 : (i : ℚ) * rowSpacing ≤ ((nodes.length - 1 : ℕ) : ℚ) * rowSpacing :=
    mul_le_mul_of_nonneg_right hrowq hrsn
  have hm4 : (0 : ℚ) ≤ (i : ℚ) * rowSpacing := mul_nonneg (Nat.cast_nonneg i) hrsn
  rw [hzi]
  refine ⟨by linarith, by linarith, by linarith, by linarith⟩

theorem buildSpatialIndex_eq (layout : GraphLayout) :
    buildSpatialIndex layout = insertList
      (Quadtree.make ⟨0, 0, layout.width + 200, layout.height + 200⟩ 4 10)
      (layout.nodes.map (fun n => ⟨n, n.x, n.y⟩)) := by
  rw [insertList, List.foldl_map]
  rfl

theorem distSq_self (x y : ℚ) : distSq x y x y = 0 := by
  rw [distSq]
  ring

theorem distSq_nonneg (ex ey x y : ℚ) : 0 ≤ distSq ex ey x y := by
  rw [distSq]
  nlinarith [mul_self_nonneg (ex - x), mul_self_nonneg (ey - y)]

theorem distSq_eq_zero {ex ey x y : ℚ} (h : distSq ex ey x y = 0) :
    ex = x ∧ ey = y := by
  rw [distSq] at h
  constructor
  · nlinarith [mul_self_nonneg (ex - x), mul_self_nonneg (ey - y)]
  · nlinarith [mul_self_nonneg (ex - x), mul_self_nonneg (ey - y)]

/-- C6: querying the spatial index built over a layout at a node's exact
position, with any positive radius, returns exactly that node. -/
theorem buildSpatialIndex_roundtrip (commits : List CommitNode)
    (hne : commits ≠ []) (hN : (oids commits).Nodup)
    {node : LayoutNode} (hnode : node ∈ (computeLayout commits).nodes)
    (r : ℚ) (hr : 0 < r) :
    (buildSpatialIndex (computeLayout commits)).queryNearest node.x node.y r
      = some node := by
  rw [buildSpatialIndex_eq]
  have hwf0 : WFQ ((Quadtree.make (T := LayoutNode)
      ⟨0, 0, (computeLayout commits).width + 200,
        (computeLayout commits).height + 200⟩ 4 10).root) := by
    refine ⟨?_, ?_, fun e he => absurd he (List.not_mem_nil e)⟩
    · have : (200 : ℚ) ≤ (computeLayout commits).width := by
        rw [computeLayout_ne commits hne]
        exact le_max_right _ _
      dsimp only
      linarith
    · have : (200 : ℚ) ≤ (computeLayout commits).height := by
        rw [computeLayout_ne commits hne]
        exact le_max_right _ _
      dsimp only
      linarith
  have hin : ∀ e ∈ (computeLayout commits).nodes.map (fun n => (⟨n, n.x, n.y⟩ : QEntry LayoutNode)),
      inB ((Quadtree.make (T := LayoutNode)
        ⟨0, 0, (computeLayout commits).width + 200,
          (computeLayout commits).height + 200⟩ 4 10).root.bounds) e.x e.y = true := by
    intro e he
    rcases List.mem_map.mp he with ⟨m, hm, rfl⟩
    exact layout_nodes_inB commits hne m hm
  have hwf := insertList_wf
    ((computeLayout commits).nodes.map (fun n => (⟨n, n.x, n.y⟩ : QEntry LayoutNode)))
    (Quadtree.make ⟨0, 0, (computeLayout commits).width + 200,
      (computeLayout commits).height + 200⟩ 4 10) hwf0
  have hperm := insertList_entries_perm
    ((computeLayout commits).nodes.map (fun n => (⟨n, n.x, n.y⟩ : QEntry LayoutNode)))
    (Quadtree.make ⟨0, 0, (computeLayout commits).width + 200,
      (computeLayout commits).height + 200⟩ 4 10) hin
  have hperm2 : List.Perm (insertList (Quadtree.make
      ⟨0, 0, (computeLayout commits).width + 200,
        (computeLayout commits).height + 200⟩ 4 10)
      ((computeLayout commits).nodes.map (fun n => (⟨n, n.x, n.y⟩ : QEntry LayoutNode)))).root.entries
      ((computeLayout commits).nodes.map (fun n => (⟨n, n.x, n.y⟩ : QEntry LayoutNode))) := by
    refine hperm.trans ?_
    simp [Quadtree.make, QNode.entries]
  obtain ⟨hsome, hnone⟩ := queryNearest_spec (insertList (Quadtree.make
      ⟨0, 0, (computeLayout commits).width + 200,
        (computeLayout commits).height + 200⟩ 4 10)
      ((computeLayout commits).nodes.map (fun n => (⟨n, n.x, n.y⟩ : QEntry LayoutNode))))
    node.x node.y r hr hwf
  have he0mem : (⟨node, node.x, node.y⟩ : QEntry LayoutNode) ∈
      (computeLayout commits).nodes.map (fun n => (⟨n, n.x, n.y⟩ : QEntry LayoutNode)) :=
    List.mem_map.mpr ⟨node, hnode, rfl⟩
  have hd0 : distSq node.x node.y node.x node.y < r * r := by
    rw [distSq_self]
    exact mul_pos hr hr
  cases hq : (insertList (Quadtree.make
      ⟨0, 0, (computeLayout commits).width + 200,
        (computeLayout commits).height + 200⟩ 4 10)
      ((computeLayout commits).nodes.map (fun n => (⟨n, n.x, n.y⟩ : QEntry LayoutNode)))).queryNearest
      node.x node.y r with
  | none =>
    exfalso
    have := hnone.mp hq ⟨node, node.x, node.y⟩ (hperm2.mem_iff.mpr he0mem)
    dsimp only at this
    rw [distSq_self] at this
    nlinarith
  | some v =>
    obtain ⟨e, he, hitem, hd, hmin⟩ := hsome v hq
    have hmin0 := hmin ⟨node, node.x, node.y⟩ (hperm2.mem_iff.mpr he0mem)
    dsimp only at hmin0
    rw [distSq_self] at hmin0
    have hdz : distSq e.x e.y node.x node.y = 0 :=
      le_antisymm hmin0 (distSq_nonneg _ _ _ _)
    obtain ⟨hex, hey⟩ := distSq_eq_zero hdz
    have hee : e ∈ (computeLayout commits).nodes.map
        (fun n => (⟨n, n.x, n.y⟩ : QEntry LayoutNode)) := hperm2.mem_iff.mp he
    rcases List.mem_map.mp hee with ⟨m, hm, hme⟩
    have hmx : m.y = node.y := by
      rw [← hme] at hey
      exact hey
    have hmn : m = node := by
      rw [computeLayout_ne commits hne] at hm hnode
      exact mkNodes_y_inj hm hnode hmx
    rw [← hitem, ← hme]
    rw [hmn]

/-- C6 witness: the single-commit layout, queried at its node's exact
position. -/
theorem buildSpatialIndex_roundtrip_witness :
    (buildSpatialIndex (computeLayout [⟨"a", "", [], 100, [], false⟩])).queryNearest
      60 60 10 = some ⟨"a", 60, 60, 0, 0, "#6366f1", [], [], "", false⟩ := by
  have hnodes : (computeLayout [⟨"a", "", [], 100, [], false⟩]).nodes
      = [⟨"a", 60, 60, 0, 0, "#6366f1", [], [], "", false⟩] := by
    rw [computeLayout_ne _ (by simp)]
    dsimp only
    rw [assignColumns, sortDesc]
    simp [List.insertionSort, stepCommit, processParents, findFree, oids, mkNodes,
      mkLayoutNode, List.lookup, branchColors, layoutPadding, colSpacing, rowSpacing]
  have h := @buildSpatialIndex_roundtrip [⟨"a", "", [], 100, [], false⟩]
    (by simp) (by decide)
    ⟨"a", 60, 60, 0, 0, "#6366f1", [], [], "", false⟩
    (by rw [hnodes]; exact List.mem_cons_self _ _) 10 (by norm_num)
  exact h

/-! ## C8: BFS ancestry -/

theorem mem_le_map_sum {α : Type} (f : α → Nat) :
    ∀ (l : List α) (a : α), a ∈ l → f a ≤ (l.map f).sum := by
  intro l
  induction l with
  | nil => intro a ha; cases ha
  | cons b t ih =>
    intro a ha
    rcases List.mem_cons.mp ha with rfl | ha2
    · simp
    · have := ih a ha2
      simp
      omega

theorem sum_filter_and_split {α : Type} (f : α → Nat) (p q : α → Prop)
    [DecidablePred p] [DecidablePred q] :
    ∀ l : List α,
      ((l.filter (fun a => p a ∧ q a)).map f).sum +
        ((l.filter (fun a => p a ∧ ¬ q a)).map f).sum
      = ((l.filter (fun a => p a)).map f).sum := by
  intro l
  induction l with
  | nil => rfl
  | cons a t ih =>
    rw [List.filter_cons, List.filter_cons, List.filter_cons]
    by_cases hp : p a
    · by_cases hq : q a
      · rw [if_pos (by simp [hp, hq]), if_neg (by simp [hp, hq]),
          if_pos (by simpa using hp)]
        simp only [List.map_cons, List.sum_cons]
        omega
      · rw [if_neg (by simp [hp, hq]), if_pos (by simp [hp, hq]),
          if_pos (by simpa using hp)]
        simp only [List.map_cons, List.sum_cons]
        omega
    · rw [if_neg (by simp [hp]), if_neg (by simp [hp]), if_neg (by simpa using hp)]
      exact ih

theorem parentsOf_le_sum (commits : List CommitNode) (cur : String) :
    (parentsOf commits cur).length ≤
      ((commits.filter (fun c => c.oid = cur)).map (fun c => c.parents.length)).sum := by
  rw [parentsOf]
  cases hg : commitGet commits cur with
  | none => simp
  | some c =>
    have hmem : c ∈ commits.reverse := List.mem_of_find?_eq_some hg
    have hpc : c.oid = cur := by
      have := List.find?_some hg
      simpa using this
    have hcc : c ∈ commits.filter (fun c2 => c2.oid = cur) :=
      List.mem_filter.mpr ⟨List.mem_reverse.mp hmem, by simpa using hpc⟩
    exact mem_le_map_sum (fun c2 => c2.parents.length) _ c hcc

theorem bfsPot_step (commits : List CommitNode) (cur : String) (rest visited : List String)
    (hcv : ¬ cur ∈ visited) :
    bfsPot commits (rest ++ (parentsOf commits cur).filter (fun p => ¬ p ∈ cur :: visited))
      (cur :: visited) + 1 ≤ bfsPot commits (cur :: rest) visited := by
  rw [bfsPot, bfsPot]
  have hsplit := sum_filter_and_split (fun c => c.parents.length)
    (fun c => ¬ c.oid ∈ visited) (fun c => c.oid = cur) commits
  have heq1 : commits.filter (fun c => (¬ c.oid ∈ visited) ∧ ¬ c.oid = cur)
      = commits.filter (fun c => ¬ c.oid ∈ cur :: visited) := by
    apply List.filter_congr
    intro c _
    simp only [List.mem_cons, decide_eq_decide]
    tauto
  have heq2 : commits.filter (fun c => (¬ c.oid ∈ visited) ∧ c.oid = cur)
      = commits.filter (fun c => c.oid = cur) := by
    apply List.filter_congr
    intro c _
    simp only [decide_eq_decide]
    constructor
    · exact fun h => h.2
    · intro h
      exact ⟨by rw [h]; exact hcv, h⟩
  have hps := parentsOf_le_sum commits cur
  have hfl : ((parentsOf commits cur).filter (fun p => ¬ p ∈ cur :: visited)).length
      ≤ (parentsOf commits cur).length := List.length_filter_le _ _
  rw [heq1, heq2] at hsplit
  rw [List.length_append, List.length_cons]
  omega

theorem reach_escape (commits : List CommitNode) (anc : String)
    (visited queue : List String)
    (hvis : ∀ v ∈ visited, ¬ v = anc ∧
      ∀ p ∈ parentsOf commits v, p ∈ visited ∨ p ∈ queue) :
    ∀ x, Relation.ReflTransGen (fun u p => p ∈ parentsOf commits u) x anc →
      (x ∈ visited ∨ x ∈ queue) →
      ∃ y ∈ queue, Relation.ReflTransGen (fun u p => p ∈ parentsOf commits u) y anc := by
  intro x hreach
  induction hreach using Relation.ReflTransGen.head_induction_on with
  | refl =>
    intro hx
    rcases hx with hv | hq
    · exact absurd rfl (hvis anc hv).1
    · exact ⟨anc, hq, Relation.ReflTransGen.refl⟩
  | head hstep htail ih =>
    rename_i a c
    intro hx
    rcases hx with hv | hq
    · rcases (hvis a hv).2 c hstep with hcv | hcq
      · exact ih (Or.inl hcv)
      · exact ih (Or.inr hcq)
    · exact ⟨a, hq, Relation.ReflTransGen.head hstep htail⟩

theorem bfs_spec (commits : List CommitNode) (anc : String) :
    ∀ (fuel : Nat) (queue visited : List String),
      bfsPot commits queue visited < fuel →
      (∀ v ∈ visited, ¬ v = anc ∧
        ∀ p ∈ parentsOf commits v, p ∈ visited ∨ p ∈ queue) →
      (bfsAncestor commits anc fuel queue visited = true ↔
        ∃ x ∈ queue, Relation.ReflTransGen
          (fun u p => p ∈ parentsOf commits u) x anc) := by
  intro fuel
  induction fuel with
  | zero =>
    intro queue visited hpot _
    omega
  | succ fuel ih =>
    intro queue visited hpot hvis
    cases queue with
    | nil =>
      rw [bfsAncestor]
      simp
    | cons cur rest =>
      rw [bfsAncestor]
      by_cases hca : cur = anc
      · rw [if_pos hca]
        subst hca
        exact iff_of_true rfl ⟨cur, List.mem_cons_self cur rest, Relation.ReflTransGen.refl⟩
      · rw [if_neg hca]
        by_cases hcv : cur ∈ visited
        · rw [if_pos hcv]
          have hpot2 : bfsPot commits rest visited < fuel := by
            rw [bfsPot] at hpot ⊢
            rw [List.length_cons] at hpot
            omega
          have hvis2 : ∀ v ∈ visited, ¬ v = anc ∧
              ∀ p ∈ parentsOf commits v, p ∈ visited ∨ p ∈ rest := by
            intro v hv
            refine ⟨(hvis v hv).1, ?_⟩
            intro p hp
            rcases (hvis v hv).2 p hp with h1 | h2
            · exact Or.inl h1
            · rcases List.mem_cons.mp h2 with rfl | h3
              · exact Or.inl hcv
              · exact Or.inr h3
          rw [ih rest visited hpot2 hvis2]
          constructor
          · rintro ⟨x, hx, hr⟩
            exact ⟨x, List.mem_cons_of_mem cur hx, hr⟩
          · rintro ⟨x, hx, hr⟩
            rcases List.mem_cons.mp hx with rfl | hx2
            · exact reach_escape commits anc visited rest hvis2 x hr (Or.inl hcv)
            · exact ⟨x, hx2, hr⟩
        · rw [if_neg hcv]
          have hpot2 : bfsPot commits
              (rest ++ (parentsOf commits cur).filter (fun p => ¬ p ∈ cur :: visited))
              (cur :: visited) < fuel := by
            have := bfsPot_step commits cur rest visited hcv
            omega
          have hvis2 : ∀ v ∈ cur :: visited, ¬ v = anc ∧
              ∀ p ∈ parentsOf commits v, p ∈ cur :: visited ∨
                p ∈ rest ++ (parentsOf commits cur).filter
                  (fun p => ¬ p ∈ cur :: visited) := by
            intro v hv
            rcases List.mem_cons.mp hv with rfl | hv2
            · refine ⟨hca, ?_⟩
              intro p hp
              by_cases hpv : p ∈ v :: visited
              · exact Or.inl hpv
              · refine Or.inr (List.mem_append_right _ ?_)
                exact List.mem_filter.mpr ⟨hp, by simpa using hpv⟩
            · refine ⟨(hvis v hv2).1, ?_⟩
              intro p hp
              rcases (hvis v hv2).2 p hp with h1 | h2
              · exact Or.inl (List.mem_cons_of_mem cur h1)
              · rcases List.mem_cons.mp h2 with rfl | h3
                · exact Or.inl (List.mem_cons_self p visited)
                · exact Or.inr (List.mem_append_left _ h3)
          rw [ih _ _ hpot2 hvis2]
          constructor
          · rintro ⟨x, hx, hr⟩
            rcases List.mem_append.mp hx with h1 | h2
            · exact ⟨x, List.mem_cons_of_mem cur h1, hr⟩
            · have hxp : x ∈ parentsOf commits cur := (List.mem_filter.mp h2).1
              exact ⟨cur, List.mem_cons_self cur rest,
                Relation.ReflTransGen.head hxp hr⟩
          · rintro ⟨x, hx, hr⟩
            rcases List.mem_cons.mp hx with rfl | hx2
            · rcases Relation.ReflTransGen.cases_head hr with rfl | ⟨p, hstep, htail⟩
              · exact absurd rfl hca
              · by_cases hpv : p ∈ x :: visited
                · exact reach_escape commits anc (x :: visited) _ hvis2 p htail
                    (Or.inl hpv)
                · refine ⟨p, List.mem_append_right _ ?_, htail⟩
                  exact List.mem_filter.mpr ⟨hstep, by simpa using hpv⟩
            · exact ⟨x, List.mem_append_left _ hx2, hr⟩

theorem parentsOf_step_iff (commits : List CommitNode)
    (hN : (oids commits).Nodup) (u p : String) :
    p ∈ parentsOf commits u ↔ parentStep commits u p := by
  constructor
  · intro hp
    rw [parentsOf] at hp
    cases hg : commitGet commits u with
    | none => rw [hg] at hp; cases hp
    | some c =>
      rw [hg] at hp
      have hmem : c ∈ commits := List.mem_reverse.mp (List.mem_of_find?_eq_some hg)
      have hoid : c.oid = u := by simpa using List.find?_some hg
      exact ⟨c, hmem, hoid, hp⟩
  · rintro ⟨c, hc, hoid, hp⟩
    rw [parentsOf]
    have hsome : (commitGet commits u).isSome := by
      rw [commitGet, lastMatch, List.find?_isSome]
      exact ⟨c, List.mem_reverse.mpr hc, by simpa using hoid⟩
    cases hg : commitGet commits u with
    | none => rw [hg] at hsome; cases hsome
    | some c2 =>
      have hmem2 : c2 ∈ commits := List.mem_reverse.mp (List.mem_of_find?_eq_some hg)
      have hoid2 : c2.oid = u := by simpa using List.find?_some hg
      have hcc : c2 = c := by
        have hinj := List.inj_on_of_nodup_map (by simpa [oids] using hN)
        exact hinj hmem2 hc (by rw [hoid2, hoid])
      rw [hcc]
      exact hp

/-- C8: on pairwise-distinct identifiers, `isAncestor(commits, a, b)`
returns true iff `a = b` or `a` is reachable from `b` along parent
references; in particular a self-query answers true even for an
identifier absent from the set. -/
theorem isAncestor_iff_reachable (commits : List CommitNode)
    (hN : (oids commits).Nodup) (a b : String) :
    isAncestor commits a b = true ↔
      Relation.ReflTransGen (parentStep commits) b a := by
  rw [isAncestor]
  have hpot : bfsPot commits [b] [] <
      (commits.map (fun c => c.parents.length)).sum + 2 := by
    rw [bfsPot]
    have : commits.filter (fun c => ¬ c.oid ∈ ([] : List String)) = commits := by
      apply List.filter_eq_self.mpr
      intro c _
      simp
    rw [this]
    simp only [List.length_cons, List.length_nil]
    omega
  have hvis : ∀ v ∈ ([] : List String), ¬ v = a ∧
      ∀ p ∈ parentsOf commits v, p ∈ ([] : List String) ∨ p ∈ [b] :=
    fun v hv => absurd hv (List.not_mem_nil v)
  rw [bfs_spec commits a ((commits.map (fun c => c.parents.length)).sum + 2) [b] [] hpot hvis]
  constructor
  · rintro ⟨x, hx, hr⟩
    have hxb : x = b := by simpa using hx
    subst hxb
    exact hr.mono (fun u p hp => (parentsOf_step_iff commits hN u p).mp hp)
  · intro hr
    exact ⟨b, List.mem_cons_self b [],
      hr.mono (fun u p hp => (parentsOf_step_iff commits hN u p).mpr hp)⟩

/-- C8 witness: in the chain `a <- b <- c`, the computed `isAncestor`
answer transfers to reachability. -/
theorem isAncestor_iff_reachable_witness :
    Relation.ReflTransGen
      (parentStep [⟨"a", "", [], 100, [], false⟩, ⟨"b", "", ["a"], 200, [], false⟩,
        ⟨"c", "", ["b"], 300, [], false⟩]) "c" "a" :=
  (isAncestor_iff_reachable
    [⟨"a", "", [], 100, [], false⟩, ⟨"b", "", ["a"], 200, [], false⟩,
      ⟨"c", "", ["b"], 300, [], false⟩]
    (by decide) "a" "c").mp (by decide)
